import Mathlib

/-!
Verification of the davai repository's versioned asset store (`davai/git.py`),
code-fence codec (`davai/code_block.py`) and response extractor
(`davai/responses.py`).

Python strings are modelled as lists of characters (`PyStr`).  Python lists
holding immutable-by-use objects are modelled as Lean lists; the one place
where Python aliasing is observable (snapshots sharing `CodeBlock` objects
with the live collection) is modelled separately with an explicit heap
(`RState` below).
-/

namespace Davai

/-- Python strings are modelled as lists of characters. -/
abbrev PyStr := List Char

/-- Conversion from a Lean string literal. -/
def pyOfString (s : String) : PyStr := s.data

/-- Characters treated as whitespace by Python `str.strip()` and `\s`
(ASCII range: space, tab, newline, carriage return, vertical tab, form feed). -/
def isPySpace (c : Char) : Bool :=
  c = ' ' || c = '\t' || c = '\n' || c = '\r' || c = Char.ofNat 11 || c = Char.ofNat 12

/-- Drop leading whitespace (Python `str.lstrip()`). -/
def lstrip (cs : PyStr) : PyStr := cs.dropWhile isPySpace

/-- Drop trailing whitespace (Python `str.rstrip()`). -/
def rstrip (cs : PyStr) : PyStr := (cs.reverse.dropWhile isPySpace).reverse

/-- Python `str.strip()`. -/
def pyStrip (cs : PyStr) : PyStr := rstrip (lstrip cs)

/-- Python `str.split(sep)` for a single-character separator. -/
def splitOnChar (sep : Char) : PyStr → List PyStr
  | [] => [[]]
  | c :: cs =>
    if c = sep then [] :: splitOnChar sep cs
    else
      match splitOnChar sep cs with
      | [] => [[c]]
      | l :: ls => (c :: l) :: ls

/-- Python `sep.join(pieces)` for a single-character separator. -/
def joinWithChar (sep : Char) : List PyStr → PyStr
  | [] => []
  | [l] => l
  | l :: ls => l ++ sep :: joinWithChar sep ls

/-- Python `content.split("\n")`. -/
def splitLines : PyStr → List PyStr := splitOnChar '\n'

/-- Python `"\n".join(lines)`. -/
def joinLines : List PyStr → PyStr := joinWithChar '\n'

/-- The character class `[\w\d/_-]` of the path recognizer (`\w` read over
ASCII: letters, digits, underscore). -/
def isClassChar (c : Char) : Bool :=
  c.isAlpha || c.isDigit || c = '_' || c = '/' || c = '-'

/-- Match a literal at the front of `cs`, returning the remainder on success. -/
def dropLit : PyStr → PyStr → Option PyStr
  | [], cs => some cs
  | _ :: _, [] => none
  | l :: ls, c :: cs => if c = l then dropLit ls cs else none

/-- Regex alternation of literal extensions, e.g. `(js|ts|dart)`: the first
alternative that is a prefix of `cs` wins (no right anchor follows it in the
source patterns, so any remainder is allowed).  Returns the matched
alternative and the remainder. -/
def matchExtAlt : List PyStr → PyStr → Option (PyStr × PyStr)
  | [], _ => none
  | e :: es, cs =>
    match dropLit e cs with
    | some rest => some (e, rest)
    | none => matchExtAlt es cs

/-- Match `src/[\w\d/_-]+\.(alt1|alt2|...)` at the front of `cs`.  The regex
engine's behaviour is deterministic here: the `+` run is the maximal run of
class characters (backtracking cannot help because `.` is not in the class),
then a literal dot, then the first extension alternative that is a prefix of
the rest.  Returns the captured path and the remainder. -/
def matchPath (exts : List PyStr) (cs : PyStr) : Option (PyStr × PyStr) :=
  match dropLit ('s' :: 'r' :: 'c' :: '/' :: []) cs with
  | none => none
  | some cs1 =>
    let run := cs1.takeWhile isClassChar
    let rest := cs1.dropWhile isClassChar
    if run.isEmpty then none
    else
      match rest with
      | [] => none
      | c :: rest2 =>
        if c = '.' then
          match matchExtAlt exts rest2 with
          | some (e, rest3) => some ('s' :: 'r' :: 'c' :: '/' :: (run ++ '.' :: e), rest3)
          | none => none
        else none

/-- Extension literals of the recognizer. -/
def extJs : PyStr := ['j', 's']

/-- Extension literal `ts`. -/
def extTs : PyStr := ['t', 's']

/-- Extension literal `dart`. -/
def extDart : PyStr := ['d', 'a', 'r', 't']

/-- Extension literal `css`. -/
def extCss : PyStr := ['c', 's', 's']

/-- The JS/TS/Dart pattern `^//\s*(src/[\w\d/_-]+\.(js|ts|dart))` matched via
`re.match` against an already stripped line.  The pattern is not anchored on
the right, so anything may follow the captured path. -/
def fromCommentJs (s : PyStr) : Option PyStr :=
  match dropLit ['/', '/'] s with
  | some r =>
    match matchPath [extJs, extTs, extDart] (r.dropWhile isPySpace) with
    | some (p, _) => some p
    | none => none
  | none => none

/-- The CSS pattern `^/\*\s*(src/[\w\d/_-]+\.css)\s*\*/` matched via
`re.match` against an already stripped line.  The closing `*/` is required
but the pattern is not anchored on the right. -/
def fromCommentCss (s : PyStr) : Option PyStr :=
  match dropLit ['/', '*'] s with
  | none => none
  | some r =>
    match matchPath [extCss] (r.dropWhile isPySpace) with
    | none => none
    | some (p, rest) =>
      match dropLit ['*', '/'] (rest.dropWhile isPySpace) with
      | some _ => some p
      | none => none

/-- `Head.from_comment`: strip the line, try the JS/TS/Dart pattern, then the
CSS pattern.  Returns the captured path. -/
def fromComment (comment : PyStr) : Option PyStr :=
  let s := pyStrip comment
  match fromCommentJs s with
  | some p => some p
  | none => fromCommentCss s

/-- Python `path.endswith(suffix)`. -/
def pyEndsWith (cs suffix : PyStr) : Bool := List.isSuffixOf suffix cs

/-- `Head.code_type`: markdown language tag from the file extension. -/
def codeType (path : PyStr) : PyStr :=
  if pyEndsWith path ('.' :: extJs) then pyOfString "javascript"
  else if pyEndsWith path ('.' :: extTs) then pyOfString "typescript"
  else if pyEndsWith path ('.' :: extDart) then pyOfString "dart"
  else if pyEndsWith path ('.' :: extCss) then pyOfString "css"
  else []

/-- `Head.as_comment`: render the path as a comment line with trailing
newline, choosing the comment style by extension. -/
def asComment (path : PyStr) : PyStr :=
  if pyEndsWith path ('.' :: extJs) || pyEndsWith path ('.' :: extTs)
      || pyEndsWith path ('.' :: extDart) then
    '/' :: '/' :: ' ' :: (path ++ ['\n'])
  else if pyEndsWith path ('.' :: extCss) then
    '/' :: '*' :: ' ' :: (path ++ [' ', '*', '/', '\n'])
  else
    '#' :: ' ' :: (path ++ ['\n'])

/-- The skip condition of `Body._extract_body`'s loop: a line is skipped while
it is blank after stripping or its stripped form is a recognized path
comment. -/
def lineSkippable (line : PyStr) : Bool :=
  let s := pyStrip line
  s.isEmpty || (fromComment s).isSome

/-- The loop of `Body._extract_body`: once `started` becomes true every
subsequent line is kept verbatim. -/
def extractBodyLoop : List PyStr → Bool → List PyStr
  | [], _ => []
  | line :: rest, started =>
    let stripped := pyStrip line
    let started2 := started || (!stripped.isEmpty && (fromComment stripped).isNone)
    if started2 then line :: extractBodyLoop rest started2
    else extractBodyLoop rest started2

/-- `Body._extract_body`: split on newlines, skip the leading run of
blank/comment lines, join the rest with newlines. -/
def extractBody (code : PyStr) : PyStr :=
  joinLines (extractBodyLoop (splitLines code) false)

/-- `Head`: the path carried by a code block. -/
structure Head where
  path : PyStr
deriving DecidableEq

/-- `Body`: the code content of a code block. -/
structure Body where
  code : PyStr
deriving DecidableEq

/-- `Body.__init__` applies `_extract_body` to the raw text. -/
def mkBody (raw : PyStr) : Body := ⟨extractBody raw⟩

/-- `CodeBlock`: a head (path) plus a body (code content). -/
structure CodeBlock where
  head : Head
  body : Body
deriving DecidableEq

/-- `CodeBlock.__repr__`: the fenced rendering, i.e. `Asset.to_text()`. -/
def reprCodeBlock (cb : CodeBlock) : PyStr :=
  '`' :: '`' :: '`' ::
    (codeType cb.head.path ++ '\n' ::
      (asComment cb.head.path ++ cb.body.code ++ '\n' :: ['`', '`', '`']))

/-- First non-blank line of a line list, stripped
(`next((line.strip() for line in lines if line.strip()), None)`). -/
def firstNonBlank : List PyStr → Option PyStr
  | [] => none
  | l :: ls =>
    let s := pyStrip l
    if s.isEmpty then firstNonBlank ls else some s

/-- `CodeBlock.parse`: recognize the first non-blank line as a path comment
and, on success, build the body from the whole block text. -/
def parseCodeBlock (codeBlock : PyStr) : Option CodeBlock :=
  let ls := splitLines codeBlock
  match firstNonBlank ls with
  | none => none
  | some firstLine =>
    match fromComment firstLine with
    | some p => some ⟨⟨p⟩, mkBody (joinLines ls)⟩
    | none => none

/-- State of the `Git` store (`davai/git.py`), value semantics.  The
operations modelled here (`add_asset`, `remove_asset`, `commit`, `undo`,
`redo`, `fetch`, `push`) never mutate a `CodeBlock` object in place, so
modelling the Python lists of object references as Lean lists of values is
exact for them; in-place mutation of a shared `CodeBlock` is modelled
separately by `RState`. -/
structure Git where
  root : PyStr
  assets : List CodeBlock
  commits : List (List CodeBlock × PyStr)
  head : Int
  redoStack : List (List CodeBlock × PyStr)
deriving DecidableEq

/-- `Git.__init__`. -/
def Git.init (root : PyStr) : Git := ⟨root, [], [], -1, []⟩

/-- Index of the first asset whose path equals `filename`
(the `enumerate` loop of `Git.add_asset`). -/
def findMatchIdx (filename : PyStr) : List CodeBlock → Option Nat
  | [] => none
  | a :: rest =>
    if a.head.path = filename then some 0
    else (findMatchIdx filename rest).map (· + 1)

/-- `Git.add_asset`: update the first asset with the same path in place,
otherwise append a new one. -/
def Git.addAsset (g : Git) (filename content : PyStr) : Git :=
  let ncb : CodeBlock := ⟨⟨filename⟩, mkBody content⟩
  match findMatchIdx filename g.assets with
  | some i => { g with assets := g.assets.set i ncb }
  | none => { g with assets := g.assets ++ [ncb] }

/-- `Git.remove_asset`. -/
def Git.removeAsset (g : Git) (filename : PyStr) : Git :=
  { g with assets := g.assets.filter (fun a => a.head.path ≠ filename) }

/-- `Git.commit`: snapshot is `self.assets.copy()` — a shallow list copy,
which under value semantics is the list itself; the commit list is truncated
to `head+1` entries, the snapshot appended, the head advanced, the redo
stack cleared.  Python's slice `[:head+1]` behaves as `take (head+1)` for
every reachable state (`head ≥ -1`). -/
def Git.commit (g : Git) (message : PyStr) : Git :=
  let snapshot := g.assets
  { g with commits := g.commits.take (g.head + 1).toNat ++ [(snapshot, message)],
           head := g.head + 1,
           redoStack := [] }

/-- `Git.undo`: a no-op unless `head > 0`; pushes the current commit entry on
the redo stack, moves the head back, restores the assets from the previous
commit.  The indexing `commits[head]` is total in Python only under the
reachable-state invariant `head < len(commits)`; it is modelled with `getD`. -/
def Git.undo (g : Git) : Git :=
  if 0 < g.head then
    let cur := g.commits.getD g.head.toNat ([], [])
    let prev := g.commits.getD (g.head - 1).toNat ([], [])
    { g with redoStack := g.redoStack ++ [cur],
             head := g.head - 1,
             assets := prev.1 }
  else g

/-- `Git.redo`: a no-op when the redo stack is empty; pops its last entry,
advances the head, appends the popped entry to the commit list again, and
restores the assets from it. -/
def Git.redo (g : Git) : Git :=
  match g.redoStack.getLast? with
  | none => g
  | some rc =>
    { g with redoStack := g.redoStack.dropLast,
             head := g.head + 1,
             commits := g.commits ++ [rc],
             assets := rc.1 }

/-- Observable content of an asset list: its path/body pairs in order. -/
def contentOf (assets : List CodeBlock) : List (PyStr × PyStr) :=
  assets.map (fun a => (a.head.path, a.body.code))

/-- Paths of an asset list in order (`Assets.paths`). -/
def pathsOf (assets : List CodeBlock) : List PyStr :=
  assets.map (fun a => a.head.path)

/-- First line of a text (`text.split("\n")[0]`). -/
def firstLineOf (cs : PyStr) : PyStr := (splitLines cs).headD []

/-- The text between the opening fence line and the closing fence line of a
rendered block: all lines except the first and the last, rejoined. -/
def innerOfFence (cs : PyStr) : PyStr :=
  joinLines (((splitLines cs).drop 1).dropLast)

/-- Index of the first occurrence of `pat` as a contiguous sublist. -/
def findSubIdx (pat : PyStr) : PyStr → Option Nat
  | [] => if pat.isEmpty then some 0 else none
  | c :: cs =>
    if pat.isPrefixOf (c :: cs) then some 0
    else (findSubIdx pat cs).map (· + 1)

/-- Try to match the opening fence ```` ```[a-z]*\n ```` at the start of `cs`;
on success return the remainder after the newline.  The `[a-z]*` run is
greedy and deterministic because `\n` is not a lowercase letter. -/
def tryOpenFence (cs : PyStr) : Option PyStr :=
  match dropLit ['`', '`', '`'] cs with
  | none => none
  | some r =>
    match r.dropWhile (fun c => 'a' ≤ c && c ≤ 'z') with
    | c :: rest => if c = '\n' then some rest else none
    | [] => none

/-- Scanner for `re.findall(r"```[a-z]*\n(.*?)\n```", text, re.DOTALL)`: at
each position try to match the whole pattern (open fence, then the shortest
capture up to the next `\n```` ``` ````); on a full match emit the capture and
resume after the closing fence, otherwise advance one character.  The fuel
argument bounds the recursion; every step strictly shrinks the text, so
`length + 1` fuel is always enough. -/
def findBlocksAux : Nat → PyStr → List PyStr
  | 0, _ => []
  | _, [] => []
  | Nat.succ fuel, c :: cs =>
    match tryOpenFence (c :: cs) with
    | some r =>
      match findSubIdx ['\n', '`', '`', '`'] r with
      | some i => r.take i :: findBlocksAux fuel (r.drop (i + 4))
      | none => findBlocksAux fuel cs
    | none => findBlocksAux fuel cs

/-- All regex captures of the fenced-block pattern in `text`. -/
def findBlocks (text : PyStr) : List PyStr :=
  findBlocksAux (text.length + 1) text

/-- `CodeResponse.extract_code_blocks`: parse every fenced block, keep the
successes in order, drop the failures (with a logged warning in the source). -/
def extractCodeBlocks (text : PyStr) : List CodeBlock :=
  (findBlocks text).filterMap parseCodeBlock

/-- Whether a block's first non-blank line is a recognized path comment. -/
def recognizedBlock (b : PyStr) : Bool :=
  match firstNonBlank (splitLines b) with
  | some fl => (fromComment fl).isSome
  | none => false

/-- The recognized path of a block (meaningful when `recognizedBlock`). -/
def pathOfBlock (b : PyStr) : PyStr :=
  match firstNonBlank (splitLines b) with
  | some fl => (fromComment fl).getD []
  | none => []

/-! Filesystem model: a flat association list from file path to content.
Directories are implicit (`os.makedirs` has no observable effect beyond
enabling the write). -/

/-- Filesystem contents. -/
abbrev FS := List (PyStr × PyStr)

/-- Content of the file at `p`, if it exists. -/
def fsLookup (fs : FS) (p : PyStr) : Option PyStr :=
  (fs.find? (fun e => e.1 = p)).map Prod.snd

/-- Write `c` to the file at `p` (overwrite or create). -/
def fsWrite : FS → PyStr → PyStr → FS
  | [], p, c => [(p, c)]
  | e :: fs, p, c => if e.1 = p then (p, c) :: fs else e :: fsWrite fs p c

/-- Path segments: split on `/` and drop empty pieces, as `posixpath.relpath`
does after `abspath`. -/
def segs (p : PyStr) : List PyStr :=
  (splitOnChar '/' p).filter (fun s => !s.isEmpty)

/-- Length of the segment-wise common prefix (`os.path.commonprefix` applied
to segment lists). -/
def commonPrefixLen : List PyStr → List PyStr → Nat
  | a :: as2, b :: bs => if a = b then commonPrefixLen as2 bs + 1 else 0
  | _, _ => 0

/-- `os.path.relpath(path, start)` for relative, already normalized POSIX
paths: the `abspath` steps of the library implementation prepend the common
working directory to both arguments, which cancels in the common-prefix
computation, so they are omitted here. -/
def pyRelpath (path start : PyStr) : PyStr :=
  let sl := segs start
  let pl := segs path
  let i := commonPrefixLen sl pl
  let rel := List.replicate (sl.length - i) ['.', '.'] ++ pl.drop i
  match rel with
  | [] => ['.']
  | _ => joinWithChar '/' rel

/-- `os.path.join(a, b)` for POSIX paths. -/
def pyJoin (a b : PyStr) : PyStr :=
  if b.headD ' ' = '/' then b
  else if a.isEmpty || a.getLast? = some '/' then a ++ b
  else a ++ '/' :: b

/-- One iteration of the `Git.push` loop over a single asset: skip assets
whose path does not start with `root` (string prefix test, as
`filename.startswith(self.root)`); otherwise compute the target location,
skip the write when the existing content is byte-identical, else write.  The
second component accumulates the writes actually performed. -/
def pushStep (root : PyStr) (acc : FS × List (PyStr × PyStr)) (a : CodeBlock) :
    FS × List (PyStr × PyStr) :=
  let filename := a.head.path
  let content := a.body.code
  if root.isPrefixOf filename then
    let filepath := pyJoin root (pyRelpath filename root)
    match fsLookup acc.1 filepath with
    | some existing =>
      if existing = content then acc
      else (fsWrite acc.1 filepath content, acc.2 ++ [(filepath, content)])
    | none => (fsWrite acc.1 filepath content, acc.2 ++ [(filepath, content)])
  else acc

/-- `Git.push` over a filesystem state, also returning the list of writes
performed (used to express write suppression). -/
def Git.push (g : Git) (fs : FS) : FS × List (PyStr × PyStr) :=
  g.assets.foldl (pushStep g.root) (fs, [])

/-- Whether a file path lies inside the directory `root` (the files yielded
by `os.walk(root)`). -/
def underRoot (root p : PyStr) : Bool := (root ++ ['/']).isPrefixOf p

/-- `Git.fetch`: walk the files under `root` in stored order and
`add_asset` each one under `os.path.join(root, os.path.relpath(path, root))`
with its content.  A missing root directory yields no files. -/
def Git.fetch (g : Git) (fs : FS) : Git :=
  (fs.filter (fun e => underRoot g.root e.1)).foldl
    (fun g2 e => g2.addAsset (pyJoin g2.root (pyRelpath e.1 g2.root)) e.2) g

/-- Replay a list of `add_asset` calls. -/
def applyAdds (g : Git) (ops : List (PyStr × PyStr)) : Git :=
  ops.foldl (fun g2 pc => g2.addAsset pc.1 pc.2) g

/-! Heap model of the store.  Python lists hold references to `CodeBlock`
objects; `list.copy()` copies the list of references but not the objects.
`RState` makes this explicit: the heap is an arena of `CodeBlock` cells and
every collection is a list of cell indices, so that in-place mutation of a
shared object (`asset.body.code = ...`, as done in the repository's own
`test_push`) is expressible. -/

structure RState where
  heap : List CodeBlock
  root : PyStr
  assets : List Nat
  commits : List (List Nat × PyStr)
  head : Int
  redoStack : List (List Nat × PyStr)
deriving DecidableEq

/-- Fresh store over an empty heap (`Git.__init__`). -/
def RState.init (root : PyStr) : RState := ⟨[], root, [], [], -1, []⟩

/-- Read a heap cell. -/
def heapGet (heap : List CodeBlock) (r : Nat) : CodeBlock :=
  heap.getD r ⟨⟨[]⟩, ⟨[]⟩⟩

/-- Index of the first reference whose asset path equals `filename`. -/
def findMatchIdxR (heap : List CodeBlock) (filename : PyStr) : List Nat → Option Nat
  | [] => none
  | r :: rest =>
    if (heapGet heap r).head.path = filename then some 0
    else (findMatchIdxR heap filename rest).map (· + 1)

/-- `Git.add_asset` in the heap model: allocate the new `CodeBlock` object,
then update the matching slot in place or append the new reference. -/
def RState.addAsset (s : RState) (filename content : PyStr) : RState :=
  let ncb : CodeBlock := ⟨⟨filename⟩, mkBody content⟩
  let r := s.heap.length
  let heap2 := s.heap ++ [ncb]
  match findMatchIdxR s.heap filename s.assets with
  | some i => { s with heap := heap2, assets := s.assets.set i r }
  | none => { s with heap := heap2, assets := s.assets ++ [r] }

/-- `Git.remove_asset` in the heap model. -/
def RState.removeAsset (s : RState) (filename : PyStr) : RState :=
  { s with assets := s.assets.filter (fun r => (heapGet s.heap r).head.path ≠ filename) }

/-- `Git.commit` in the heap model: the snapshot is `self.assets.copy()`, a
copy of the reference list sharing every `CodeBlock` object with the live
collection. -/
def RState.commit (s : RState) (message : PyStr) : RState :=
  { s with commits := s.commits.take (s.head + 1).toNat ++ [(s.assets, message)],
           head := s.head + 1,
           redoStack := [] }

/-- Direct mutation of an asset's body (`asset.body.code = newCode`): updates
the shared heap cell. -/
def RState.mutateBody (s : RState) (r : Nat) (newCode : PyStr) : RState :=
  { s with heap := s.heap.set r ⟨(heapGet s.heap r).head, ⟨newCode⟩⟩ }

/-- Observable content of a reference list read through a heap. -/
def refContent (heap : List CodeBlock) (refs : List Nat) : List (PyStr × PyStr) :=
  refs.map (fun r => ((heapGet heap r).head.path, (heapGet heap r).body.code))

/-- Mutations available through the store's own collection API. -/
inductive MOp where
  | add (filename content : PyStr)
  | remove (filename : PyStr)
deriving DecidableEq

/-- Apply one collection mutation. -/
def applyMOp (s : RState) : MOp → RState
  | MOp.add filename content => s.addAsset filename content
  | MOp.remove filename => s.removeAsset filename

/-- Apply a sequence of collection mutations. -/
def applyMOps (s : RState) (ops : List MOp) : RState :=
  ops.foldl applyMOp s

/-! Concrete values for the spec's scenarios.  The single-quote character is
spelled via its code point. -/

/-- The single-quote character. -/
def sq : Char := Char.ofNat 39

/-- The body `console.log('hi')`. -/
def hiBody : PyStr := pyOfString "console.log(" ++ sq :: pyOfString "hi" ++ [sq, ')']

/-- The body `console.log('bye')`. -/
def byeBody : PyStr := pyOfString "console.log(" ++ sq :: pyOfString "bye" ++ [sq, ')']

/-- The path `src/App.js`. -/
def appJs : PyStr := pyOfString "src/App.js"

/-- The store state of the spec's undo/redo scenario: add `src/App.js` with
`console.log('hi')`, commit, add it again with `console.log('bye')`, commit. -/
def scenarioGit : Git :=
  ((((Git.init (pyOfString "src")).addAsset appJs hiBody).commit
      (pyOfString "c1")).addAsset appJs byeBody).commit (pyOfString "c2")

/-- A response with two fenced blocks, one led by a recognized path comment
and one without any comment (the spec's extraction scenario). -/
def sampleResponse : PyStr :=
  pyOfString "Here you go:\n```javascript\n// src/App.js\nfoo()\n```\nand\n```\nno path here\n```\ndone"

/-! Lemmas about splitting and joining. -/

theorem splitOnChar_ne_nil (sep : Char) (cs : PyStr) : splitOnChar sep cs ≠ [] := by
  induction cs with
  | nil => simp [splitOnChar]
  | cons c cs ih =>
    simp only [splitOnChar]
    by_cases h : c = sep
    · simp [h]
    · simp only [h, if_false]
      cases hr : splitOnChar sep cs with
      | nil => simp
      | cons l ls => simp

theorem mem_splitOnChar_not_sep (sep : Char) (cs : PyStr) :
    ∀ l ∈ splitOnChar sep cs, sep ∉ l := by
  induction cs with
  | nil => simp [splitOnChar]
  | cons c cs ih =>
    intro l hl
    by_cases h : c = sep
    · simp only [splitOnChar, h, if_true, List.mem_cons] at hl
      rcases hl with hl | hl
      · simp [hl]
      · exact ih l hl
    · cases hr : splitOnChar sep cs with
      | nil => exact absurd hr (splitOnChar_ne_nil sep cs)
      | cons m ms =>
        simp only [splitOnChar, h, if_false, hr, List.mem_cons] at hl
        rcases hl with hl | hl
        · subst hl
          intro hmem
          rcases List.mem_cons.mp hmem with h1 | h1
          · exact h h1.symm
          · exact ih m (by simp [hr]) h1
        · exact ih l (by simp [hr, hl])

theorem joinWithChar_splitOnChar (sep : Char) (cs : PyStr) :
    joinWithChar sep (splitOnChar sep cs) = cs := by
  induction cs with
  | nil => simp [splitOnChar, joinWithChar]
  | cons c cs ih =>
    simp only [splitOnChar]
    by_cases h : c = sep
    · simp only [h, if_true]
      cases hr : splitOnChar sep cs with
      | nil => exact absurd hr (splitOnChar_ne_nil sep cs)
      | cons m ms =>
        rw [hr] at ih
        simp [joinWithChar, ih]
    · simp only [h, if_false]
      cases hr : splitOnChar sep cs with
      | nil => exact absurd hr (splitOnChar_ne_nil sep cs)
      | cons m ms =>
        rw [hr] at ih
        cases ms with
        | nil => simp_all [joinWithChar]
        | cons m2 ms2 => simp_all [joinWithChar]

theorem splitOnChar_append_sep (sep : Char) (a b : PyStr) :
    splitOnChar sep (a ++ sep :: b) = splitOnChar sep a ++ splitOnChar sep b := by
  induction a with
  | nil => simp [splitOnChar]
  | cons c a ih =>
    by_cases h : c = sep
    · simp [splitOnChar, h, ih]
    · simp only [List.cons_append, splitOnChar, h, if_false, List.append_eq]
      rw [ih]
      cases hr : splitOnChar sep a with
      | nil => exact absurd hr (splitOnChar_ne_nil sep a)
      | cons m ms => simp

theorem splitOnChar_of_not_mem (sep : Char) (cs : PyStr) (h : sep ∉ cs) :
    splitOnChar sep cs = [cs] := by
  induction cs with
  | nil => simp [splitOnChar]
  | cons c cs ih =>
    have hc : ¬ c = sep := fun hc => h (by simp [hc])
    have hcs : sep ∉ cs := fun hm => h (by simp [hm])
    simp [splitOnChar, hc, ih hcs]

theorem splitOnChar_joinWithChar (sep : Char) (ls : List PyStr) (h0 : ls ≠ [])
    (h1 : ∀ l ∈ ls, sep ∉ l) : splitOnChar sep (joinWithChar sep ls) = ls := by
  induction ls with
  | nil => exact absurd rfl h0
  | cons l ls ih =>
    cases ls with
    | nil =>
      simp only [joinWithChar]
      exact splitOnChar_of_not_mem sep l (h1 l (by simp))
    | cons l2 ls2 =>
      have : joinWithChar sep (l :: l2 :: ls2) = l ++ sep :: joinWithChar sep (l2 :: ls2) := rfl
      rw [this, splitOnChar_append_sep, splitOnChar_of_not_mem sep l (h1 l (by simp)),
        ih (by simp) (fun m hm => h1 m (by simp [hm]))]
      simp

/-! Lemmas about takeWhile, dropWhile and literal matching. -/

theorem dropWhile_eq_cons_head_false {α : Type} (p : α → Bool) (l : List α) (x : α)
    (xs : List α) (h : l.dropWhile p = x :: xs) : p x = false := by
  induction l with
  | nil => simp [List.dropWhile] at h
  | cons c cs ih =>
    rw [List.dropWhile_cons] at h
    by_cases hc : p c
    · simp only [hc, if_true] at h
      exact ih h
    · simp only [hc, if_false] at h
      cases h
      simpa using hc

theorem takeWhile_all_append (p : Char → Bool) (a : PyStr) (c : Char) (b : PyStr)
    (ha : ∀ x ∈ a, p x = true) (hc : p c = false) :
    (a ++ c :: b).takeWhile p = a ∧ (a ++ c :: b).dropWhile p = c :: b := by
  induction a with
  | nil => simp [List.takeWhile_cons, List.dropWhile_cons, hc]
  | cons x a ih =>
    have hx : p x = true := ha x (by simp)
    have ih2 := ih (fun y hy => ha y (by simp [hy]))
    simp [List.takeWhile_cons, List.dropWhile_cons, hx, ih2.1, ih2.2]

theorem mem_takeWhile_pred {α : Type} (p : α → Bool) (l : List α) :
    ∀ x ∈ l.takeWhile p, p x = true := by
  induction l with
  | nil => simp
  | cons c cs ih =>
    intro x hx
    rw [List.takeWhile_cons] at hx
    by_cases hc : p c
    · simp only [hc, if_true] at hx
      rcases List.mem_cons.mp hx with h | h
      · subst h; exact hc
      · exact ih x h
    · simp [hc] at hx

theorem dropWhile_append_general {α : Type} (p : α → Bool) (xs ys : List α) :
    (xs ++ ys).dropWhile p =
      if (xs.dropWhile p).isEmpty then ys.dropWhile p else xs.dropWhile p ++ ys := by
  induction xs with
  | nil => simp
  | cons c cs ih =>
    by_cases hc : p c
    · simp [List.dropWhile_cons, hc, ih]
    · simp [List.dropWhile_cons, hc]

theorem dropWhile_eq_drop_len {α : Type} (p : α → Bool) (l : List α) :
    l.dropWhile p = l.drop (l.takeWhile p).length := by
  induction l with
  | nil => rfl
  | cons a l ih =>
    by_cases h : p a <;>
      simp [List.dropWhile_cons, List.takeWhile_cons, h, ih]

theorem takeWhile_eq_take_len {α : Type} (p : α → Bool) (l : List α) :
    l.takeWhile p = l.take (l.takeWhile p).length := by
  induction l with
  | nil => rfl
  | cons a l ih =>
    by_cases h : p a <;>
      simp [List.takeWhile_cons, h, ← ih]

theorem dropLit_self (a b : PyStr) : dropLit a (a ++ b) = some b := by
  induction a with
  | nil => simp [dropLit]
  | cons c cs ih => simp [dropLit, ih]

theorem dropLit_eq_some (a cs r : PyStr) (h : dropLit a cs = some r) : cs = a ++ r := by
  induction a generalizing cs with
  | nil => simpa [dropLit] using h
  | cons c a ih =>
    cases cs with
    | nil => simp [dropLit] at h
    | cons x xs =>
      simp only [dropLit] at h
      by_cases hx : x = c
      · simp only [hx, if_true] at h
        simp [hx, ih xs h]
      · simp [hx] at h

/-! Characterization of the extract_body loop. -/

theorem extractBodyLoop_true (ls : List PyStr) : extractBodyLoop ls true = ls := by
  induction ls with
  | nil => rfl
  | cons l ls ih => simp [extractBodyLoop, ih]

theorem extractBodyLoop_false (ls : List PyStr) :
    extractBodyLoop ls false = ls.dropWhile lineSkippable := by
  induction ls with
  | nil => rfl
  | cons l ls ih =>
    by_cases h : lineSkippable l
    · have hb : (!(pyStrip l).isEmpty && (fromComment (pyStrip l)).isNone) = false := by
        simp only [lineSkippable, Bool.or_eq_true] at h
        rcases h with h | h
        · simp [h]
        · simp [Option.isNone, Option.isSome] at h ⊢
          cases hf : fromComment (pyStrip l) with
          | none => rw [hf] at h; simp at h
          | some p => simp
      simp [extractBodyLoop, hb, List.dropWhile_cons, h, ih]
    · have hb : (!(pyStrip l).isEmpty && (fromComment (pyStrip l)).isNone) = true := by
        simp only [lineSkippable, Bool.or_eq_true, not_or] at h
        push_neg at h
        rcases h with ⟨h1, h2⟩
        simp only [Bool.and_eq_true, Bool.not_eq_true']
        refine ⟨by simpa using h1, ?_⟩
        cases hf : fromComment (pyStrip l) with
        | none => simp
        | some p => rw [hf] at h2; simp at h2
      simp [extractBodyLoop, hb, List.dropWhile_cons, h, extractBodyLoop_true]

theorem extractBody_eq_dropWhile (cs : PyStr) :
    extractBody cs = joinLines ((splitLines cs).dropWhile lineSkippable) := by
  simp [extractBody, extractBodyLoop_false]

/-! Lemmas about stripping. -/

theorem lstrip_cons_of_not_space (c : Char) (cs : PyStr) (h : isPySpace c = false) :
    lstrip (c :: cs) = c :: cs := by
  simp [lstrip, List.dropWhile_cons, h]

theorem rstrip_append (a b : PyStr) (c0 : Char) (h : a.getLast? = some c0)
    (hc : isPySpace c0 = false) : rstrip (a ++ b) = a ++ rstrip b := by
  have h1 : a.reverse.head? = some c0 := by rw [List.head?_reverse]; exact h
  cases ha : a.reverse with
  | nil => rw [ha] at h1; simp at h1
  | cons x t =>
    rw [ha] at h1
    simp only [List.head?_cons, Option.some_inj] at h1
    have hcx : isPySpace x = false := by rw [h1]; exact hc
    have hd : ((a ++ b).reverse).dropWhile isPySpace
        = b.reverse.dropWhile isPySpace ++ (x :: t) := by
      rw [List.reverse_append, ha, List.dropWhile_append]
      by_cases he : (b.reverse.dropWhile isPySpace).isEmpty
      · rw [if_pos he]
        have h2 : b.reverse.dropWhile isPySpace = [] := List.isEmpty_iff.mp he
        simp [h2, List.dropWhile_cons, hcx]
      · rw [if_neg he]
    rw [rstrip, hd, List.reverse_append]
    have h3 : (x :: t).reverse = a := by rw [← ha, List.reverse_reverse]
    rw [h3, rstrip]

theorem getLast?_append_cons (a : PyStr) (x : Char) (b : PyStr) :
    (a ++ x :: b).getLast? = (x :: b).getLast? := by
  rw [List.getLast?_append]
  cases hb : (x :: b).getLast? with
  | none => exact absurd hb (by simp [List.getLast?_cons])
  | some y => rfl

/-! Shape of recognized paths. -/

/-- A recognized path: `src/` then a nonempty run of class characters, a dot
and an extension. -/
def srcPath (run e : PyStr) : PyStr := 's' :: 'r' :: 'c' :: '/' :: (run ++ '.' :: e)

theorem matchExtAlt_sound (exts : List PyStr) (cs e r : PyStr)
    (h : matchExtAlt exts cs = some (e, r)) : e ∈ exts ∧ cs = e ++ r := by
  induction exts with
  | nil => simp [matchExtAlt] at h
  | cons e1 es ih =>
    simp only [matchExtAlt] at h
    cases hd : dropLit e1 cs with
    | some rest =>
      rw [hd] at h
      simp only [Option.some_inj, Prod.mk.injEq] at h
      obtain ⟨he, hr⟩ := h
      subst he; subst hr
      exact ⟨by simp, dropLit_eq_some _ _ _ hd⟩
    | none =>
      rw [hd] at h
      obtain ⟨hmem, heq⟩ := ih h
      exact ⟨by simp [hmem], heq⟩

theorem matchPath_sound (exts : List PyStr) (cs p r : PyStr)
    (h : matchPath exts cs = some (p, r)) :
    ∃ run e, p = srcPath run e ∧ run ≠ [] ∧ (∀ c ∈ run, isClassChar c = true) ∧ e ∈ exts := by
  simp only [matchPath] at h
  cases hd : dropLit ('s' :: 'r' :: 'c' :: '/' :: []) cs with
  | none => rw [hd] at h; simp at h
  | some cs1 =>
    rw [hd] at h
    simp only at h
    by_cases hre : (cs1.takeWhile isClassChar).isEmpty
    · rw [if_pos hre] at h; simp at h
    · rw [if_neg hre] at h
      cases hrest : cs1.dropWhile isClassChar with
      | nil => rw [hrest] at h; simp at h
      | cons c rest2 =>
        rw [hrest] at h
        simp only at h
        by_cases hdot : c = '.'
        · rw [if_pos hdot] at h
          cases hma : matchExtAlt exts rest2 with
          | none => rw [hma] at h; simp at h
          | some er =>
            obtain ⟨e, rest3⟩ := er
            rw [hma] at h
            simp only [Option.some_inj, Prod.mk.injEq] at h
            obtain ⟨hp, _⟩ := h
            refine ⟨cs1.takeWhile isClassChar, e, hp.symm, ?_, ?_, ?_⟩
            · exact fun hnil => hre (by simp [hnil])
            · exact mem_takeWhile_pred isClassChar cs1
            · exact (matchExtAlt_sound exts rest2 e rest3 hma).1
        · rw [if_neg hdot] at h; simp at h

theorem fromCommentJs_sound (s p : PyStr) (h : fromCommentJs s = some p) :
    ∃ run e, p = srcPath run e ∧ run ≠ [] ∧ (∀ c ∈ run, isClassChar c = true) ∧
      (e = extJs ∨ e = extTs ∨ e = extDart) := by
  simp only [fromCommentJs] at h
  cases hd : dropLit ['/', '/'] s with
  | none => rw [hd] at h; simp at h
  | some r =>
    rw [hd] at h
    have h2 : (match matchPath [extJs, extTs, extDart] (r.dropWhile isPySpace) with
        | some (p, _) => some p
        | none => none) = some p := h
    cases hm : matchPath [extJs, extTs, extDart] (r.dropWhile isPySpace) with
    | none => rw [hm] at h2; simp at h2
    | some pr =>
      obtain ⟨p1, r1⟩ := pr
      rw [hm] at h2
      simp only [Option.some_inj] at h2
      subst h2
      obtain ⟨run, e, hp, hr1, hr2, hr3⟩ := matchPath_sound _ _ _ _ hm
      refine ⟨run, e, hp, hr1, hr2, ?_⟩
      simpa using hr3

theorem fromCommentCss_sound (s p : PyStr) (h : fromCommentCss s = some p) :
    ∃ run, p = srcPath run extCss ∧ run ≠ [] ∧ (∀ c ∈ run, isClassChar c = true) := by
  simp only [fromCommentCss] at h
  cases hd : dropLit ['/', '*'] s with
  | none => rw [hd] at h; simp at h
  | some r =>
    rw [hd] at h
    have h2 : (match matchPath [extCss] (r.dropWhile isPySpace) with
        | none => none
        | some (p, rest) =>
          match dropLit ['*', '/'] (rest.dropWhile isPySpace) with
          | some _ => some p
          | none => none) = some p := h
    cases hm : matchPath [extCss] (r.dropWhile isPySpace) with
    | none => rw [hm] at h2; simp at h2
    | some pr =>
      obtain ⟨p1, r1⟩ := pr
      rw [hm] at h2
      simp only at h2
      cases hd2 : dropLit ['*', '/'] (r1.dropWhile isPySpace) with
      | none => rw [hd2] at h2; simp at h2
      | some rest =>
        rw [hd2] at h2
        simp only [Option.some_inj] at h2
        subst h2
        obtain ⟨run, e, hp, hr1, hr2, hr3⟩ := matchPath_sound _ _ _ _ hm
        simp only [List.mem_singleton] at hr3
        subst hr3
        exact ⟨run, hp, hr1, hr2⟩

theorem fromComment_sound (line p : PyStr) (h : fromComment line = some p) :
    ∃ run e, p = srcPath run e ∧ run ≠ [] ∧ (∀ c ∈ run, isClassChar c = true) ∧
      (e = extJs ∨ e = extTs ∨ e = extDart ∨ e = extCss) := by
  simp only [fromComment] at h
  cases hjs : fromCommentJs (pyStrip line) with
  | some p1 =>
    rw [hjs] at h
    simp only [Option.some_inj] at h
    subst h
    obtain ⟨run, e, hp, h1, h2, h3⟩ := fromCommentJs_sound _ _ hjs
    exact ⟨run, e, hp, h1, h2, by tauto⟩
  | none =>
    rw [hjs] at h
    obtain ⟨run, hp, h1, h2⟩ := fromCommentCss_sound _ _ h
    exact ⟨run, extCss, hp, h1, h2, by tauto⟩

/-! Completeness of the recognizer on canonical comment lines, with arbitrary
trailing text (the patterns are unanchored on the right). -/

theorem dropLit_src (X : PyStr) :
    dropLit ('s' :: 'r' :: 'c' :: '/' :: []) ('s' :: 'r' :: 'c' :: '/' :: X) = some X := rfl

theorem matchExtAlt_js_self (e t : PyStr) (he : e = extJs ∨ e = extTs ∨ e = extDart) :
    matchExtAlt [extJs, extTs, extDart] (e ++ t) = some (e, t) := by
  rcases he with he | he | he <;> subst he <;> rfl

theorem matchExtAlt_css_self (t : PyStr) :
    matchExtAlt [extCss] (extCss ++ t) = some (extCss, t) := rfl

theorem matchPath_complete (exts : List PyStr) (run e t : PyStr) (h1 : run ≠ [])
    (h2 : ∀ c ∈ run, isClassChar c = true)
    (hma : matchExtAlt exts (e ++ t) = some (e, t)) :
    matchPath exts (srcPath run e ++ t) = some (srcPath run e, t) := by
  have hsp : srcPath run e ++ t = 's' :: 'r' :: 'c' :: '/' :: (run ++ '.' :: (e ++ t)) := by
    simp [srcPath]
  rw [hsp]
  have htk := takeWhile_all_append isClassChar run '.' (e ++ t) h2 (by decide)
  have hne : run.isEmpty = false := by
    cases run with
    | nil => exact absurd rfl h1
    | cons x xs => rfl
  simp only [matchPath, dropLit_src, htk.1, htk.2, hne, Bool.false_eq_true, if_false]
  rw [hma]
  simp [srcPath]

theorem fromComment_js_complete (run e t : PyStr) (h1 : run ≠ [])
    (h2 : ∀ c ∈ run, isClassChar c = true) (he : e = extJs ∨ e = extTs ∨ e = extDart) :
    fromComment ('/' :: '/' :: ' ' :: (srcPath run e ++ t)) = some (srcPath run e) := by
  obtain ⟨c0, hg, hns⟩ : ∃ c0, (srcPath run e).getLast? = some c0 ∧ isPySpace c0 = false := by
    have hsp : srcPath run e = ('s' :: 'r' :: 'c' :: '/' :: run) ++ '.' :: e := by
      simp [srcPath]
    rcases he with he | he | he <;> subst he
    · exact ⟨'s', by rw [hsp, getLast?_append_cons]; rfl, by decide⟩
    · exact ⟨'s', by rw [hsp, getLast?_append_cons]; rfl, by decide⟩
    · exact ⟨'t', by rw [hsp, getLast?_append_cons]; rfl, by decide⟩
  have hga : ('/' :: '/' :: ' ' :: srcPath run e).getLast? = some c0 := by
    have := getLast?_append_cons ['/', '/', ' '] 's'
      ('r' :: 'c' :: '/' :: (run ++ '.' :: e))
    exact this.trans hg
  have hstrip : pyStrip ('/' :: '/' :: ' ' :: (srcPath run e ++ t))
      = '/' :: '/' :: ' ' :: (srcPath run e ++ rstrip t) := by
    rw [pyStrip, lstrip_cons_of_not_space _ _ (by decide)]
    have hsh : '/' :: '/' :: ' ' :: (srcPath run e ++ t)
        = ('/' :: '/' :: ' ' :: srcPath run e) ++ t := by simp
    rw [hsh, rstrip_append _ _ c0 hga hns]
    simp
  have hdw : (' ' :: (srcPath run e ++ rstrip t)).dropWhile isPySpace
      = srcPath run e ++ rstrip t := by
    rw [List.dropWhile_cons]
    simp only [show isPySpace ' ' = true from rfl, if_true]
    have hsh : srcPath run e ++ rstrip t
        = 's' :: ('r' :: 'c' :: '/' :: (run ++ '.' :: e) ++ rstrip t) := by simp [srcPath]
    rw [hsh, List.dropWhile_cons]
    simp [show isPySpace 's' = false from rfl]
  have hjs : fromCommentJs ('/' :: '/' :: ' ' :: (srcPath run e ++ rstrip t))
      = some (srcPath run e) := by
    have hd : dropLit ['/', '/'] ('/' :: '/' :: ' ' :: (srcPath run e ++ rstrip t))
        = some (' ' :: (srcPath run e ++ rstrip t)) := rfl
    simp only [fromCommentJs, hd, hdw]
    rw [matchPath_complete [extJs, extTs, extDart] run e (rstrip t) h1 h2
      (matchExtAlt_js_self e (rstrip t) he)]
  simp only [fromComment, hstrip, hjs]

theorem fromComment_css_complete (run t : PyStr) (h1 : run ≠ [])
    (h2 : ∀ c ∈ run, isClassChar c = true) :
    fromComment ('/' :: '*' :: ' ' :: (srcPath run extCss ++ (' ' :: '*' :: '/' :: t)))
      = some (srcPath run extCss) := by
  have hga : ('/' :: '*' :: ' ' :: (srcPath run extCss ++ [' ', '*', '/'])).getLast?
      = some '/' := by
    have hsh : '/' :: '*' :: ' ' :: (srcPath run extCss ++ [' ', '*', '/'])
        = ('/' :: '*' :: ' ' :: srcPath run extCss) ++ ' ' :: ['*', '/'] := by simp
    rw [hsh, getLast?_append_cons]
    rfl
  have hstrip : pyStrip ('/' :: '*' :: ' ' :: (srcPath run extCss ++ (' ' :: '*' :: '/' :: t)))
      = '/' :: '*' :: ' ' :: (srcPath run extCss ++ (' ' :: '*' :: '/' :: rstrip t)) := by
    rw [pyStrip, lstrip_cons_of_not_space _ _ (by decide)]
    have hsh : '/' :: '*' :: ' ' :: (srcPath run extCss ++ (' ' :: '*' :: '/' :: t))
        = ('/' :: '*' :: ' ' :: (srcPath run extCss ++ [' ', '*', '/'])) ++ t := by simp
    rw [hsh, rstrip_append _ _ '/' hga (by decide)]
    simp
  have hjsfail : fromCommentJs
      ('/' :: '*' :: ' ' :: (srcPath run extCss ++ (' ' :: '*' :: '/' :: rstrip t))) = none := rfl
  have hdw : (' ' :: (srcPath run extCss ++ (' ' :: '*' :: '/' :: rstrip t))).dropWhile isPySpace
      = srcPath run extCss ++ (' ' :: '*' :: '/' :: rstrip t) := by
    rw [List.dropWhile_cons]
    simp only [show isPySpace ' ' = true from rfl, if_true]
    have hsh : srcPath run extCss ++ (' ' :: '*' :: '/' :: rstrip t)
        = 's' :: ('r' :: 'c' :: '/' :: (run ++ '.' :: extCss)
            ++ (' ' :: '*' :: '/' :: rstrip t)) := by simp [srcPath]
    rw [hsh, List.dropWhile_cons]
    simp [show isPySpace 's' = false from rfl]
  have hcss : fromCommentCss
      ('/' :: '*' :: ' ' :: (srcPath run extCss ++ (' ' :: '*' :: '/' :: rstrip t)))
      = some (srcPath run extCss) := by
    have hd : dropLit ['/', '*']
        ('/' :: '*' :: ' ' :: (srcPath run extCss ++ (' ' :: '*' :: '/' :: rstrip t)))
        = some (' ' :: (srcPath run extCss ++ (' ' :: '*' :: '/' :: rstrip t))) := rfl
    simp only [fromCommentCss, hd, hdw]
    rw [matchPath_complete [extCss] run extCss (' ' :: '*' :: '/' :: rstrip t) h1 h2
      (matchExtAlt_css_self (' ' :: '*' :: '/' :: rstrip t))]
    have hdw2 : (' ' :: '*' :: '/' :: rstrip t).dropWhile isPySpace = '*' :: '/' :: rstrip t := by
      rw [List.dropWhile_cons]
      simp [show isPySpace ' ' = true from rfl, List.dropWhile_cons,
        show isPySpace '*' = false from rfl]
    simp only [hdw2]
    rfl
  simp only [fromComment, hstrip, hjsfail, hcss]

/-! Claim C4. -/

/-- C4 (counterexample): the claim asserts that a line with trailing text
after a valid-looking path yields no match, but `re.match` is not anchored on
the right: `// src/App.js some trailing text` is recognized and returns
`src/App.js`. -/
theorem claim_C4_counterexample :
    fromComment (pyOfString "// src/App.js some trailing text")
      = some (pyOfString "src/App.js") := by decide

/-- C4 (amended): `recognize_path` returns a path only for line-style or
block-style comments carrying a conservative path (rooted at `src`, a
nonempty run of word characters, `/`, `-`, and a recognized extension) —
that part of the claim holds — but recognition is anchored only on the left:
a canonical `// path` comment (for js/ts/dart) or `/* path */` comment (for
css) followed by arbitrary trailing text is still recognized and returns the
path. -/
theorem claim_C4_amended :
    (∀ line p, fromComment line = some p →
      ∃ run e, p = srcPath run e ∧ run ≠ [] ∧ (∀ c ∈ run, isClassChar c = true) ∧
        (e = extJs ∨ e = extTs ∨ e = extDart ∨ e = extCss)) ∧
    (∀ run e t, run ≠ [] → (∀ c ∈ run, isClassChar c = true) →
      (e = extJs ∨ e = extTs ∨ e = extDart) →
      fromComment ('/' :: '/' :: ' ' :: (srcPath run e ++ t)) = some (srcPath run e)) ∧
    (∀ run t, run ≠ [] → (∀ c ∈ run, isClassChar c = true) →
      fromComment ('/' :: '*' :: ' ' :: (srcPath run extCss ++ (' ' :: '*' :: '/' :: t)))
        = some (srcPath run extCss)) :=
  ⟨fromComment_sound,
   fun run e t h1 h2 he => fromComment_js_complete run e t h1 h2 he,
   fun run t h1 h2 => fromComment_css_complete run t h1 h2⟩

/-- Witness for C4: the amended theorem applied at concrete inputs. -/
theorem claim_C4_amended_witness :
    (∃ run e, pyOfString "src/App.ts" = srcPath run e ∧ run ≠ [] ∧
      (∀ c ∈ run, isClassChar c = true) ∧
      (e = extJs ∨ e = extTs ∨ e = extDart ∨ e = extCss)) ∧
    fromComment ('/' :: '/' :: ' ' :: (srcPath (pyOfString "App") extTs
        ++ pyOfString " some tail")) = some (srcPath (pyOfString "App") extTs) ∧
    fromComment ('/' :: '*' :: ' ' :: (srcPath (pyOfString "a") extCss
        ++ (' ' :: '*' :: '/' :: pyOfString " tail")))
      = some (srcPath (pyOfString "a") extCss) :=
  ⟨claim_C4_amended.1 (pyOfString "// src/App.ts") (pyOfString "src/App.ts") (by decide),
   claim_C4_amended.2.1 (pyOfString "App") extTs (pyOfString " some tail")
     (by decide) (by decide) (Or.inr (Or.inl rfl)),
   claim_C4_amended.2.2 (pyOfString "a") (pyOfString " tail") (by decide) (by decide)⟩

/-! Claim C7. -/

/-- C7: `extract_body` skips exactly the leading run of lines that are blank
or recognized path comments: the result is the remaining lines joined with
newlines verbatim (there is an index `k` splitting the lines into a skipped
run, all of whose lines are blank or recognized, and a kept remainder whose
first line, when present, is neither); a text all of whose lines are blank
or recognized yields the empty string. -/
theorem claim_C7 :
    (∀ raw, extractBody raw = joinLines ((splitLines raw).dropWhile lineSkippable)) ∧
    (∀ raw, ∃ k,
      (splitLines raw).dropWhile lineSkippable = (splitLines raw).drop k ∧
      (∀ l ∈ (splitLines raw).take k, lineSkippable l = true) ∧
      (∀ x xs, (splitLines raw).drop k = x :: xs → lineSkippable x = false)) ∧
    (∀ raw, (∀ l ∈ splitLines raw, lineSkippable l = true) → extractBody raw = []) := by
  refine ⟨extractBody_eq_dropWhile, ?_, ?_⟩
  · intro raw
    refine ⟨((splitLines raw).takeWhile lineSkippable).length, ?_, ?_, ?_⟩
    · exact dropWhile_eq_drop_len lineSkippable (splitLines raw)
    · intro l hl
      rw [← takeWhile_eq_take_len] at hl
      exact mem_takeWhile_pred lineSkippable (splitLines raw) l hl
    · intro x xs hx
      rw [← dropWhile_eq_drop_len] at hx
      exact dropWhile_eq_cons_head_false lineSkippable _ _ _ hx
  · intro raw h
    rw [extractBody_eq_dropWhile, List.dropWhile_eq_nil_iff.mpr h]
    rfl

/-- Witness for C7: leading blank and comment lines are stripped, the rest is
kept verbatim; an all-blank/comment text yields the empty string. -/
theorem claim_C7_witness :
    extractBody (pyOfString "\n// src/App.js\nkeep me\n\nalso kept")
      = joinLines ((splitLines (pyOfString "\n// src/App.js\nkeep me\n\nalso kept")).dropWhile
          lineSkippable) ∧
    (∀ l ∈ splitLines (pyOfString "\n// src/App.js\n"), lineSkippable l = true) ∧
    extractBody (pyOfString "\n// src/App.js\n") = [] :=
  ⟨claim_C7.1 (pyOfString "\n// src/App.js\nkeep me\n\nalso kept"),
   by decide,
   claim_C7.2.2 (pyOfString "\n// src/App.js\n") (by decide)⟩

/-! Claim C1. -/

/-- C1: from any state reached by a sequence of commits (so the live content
coincides with the snapshot at the head, and the head is at least 1, i.e. at
least two commits were made), `undo` restores the content captured by the
previous commit, and `redo` after that `undo` restores the content from just
before the `undo`. -/
theorem claim_C1 (g : Git) (h1 : 1 ≤ g.head) (h2 : g.head < (g.commits.length : Int))
    (h3 : contentOf g.assets = contentOf (g.commits.getD g.head.toNat ([], [])).1) :
    contentOf (Git.undo g).assets
      = contentOf (g.commits.getD (g.head.toNat - 1) ([], [])).1 ∧
    contentOf (Git.redo (Git.undo g)).assets = contentOf g.assets := by
  have h0 : 0 < g.head := by omega
  have hto : (g.head - 1).toNat = g.head.toNat - 1 := by omega
  have hu : Git.undo g = { g with
      redoStack := g.redoStack ++ [g.commits.getD g.head.toNat ([], [])],
      head := g.head - 1,
      assets := (g.commits.getD (g.head - 1).toNat ([], [])).1 } := by
    simp [Git.undo, h0]
  constructor
  · rw [hu, hto]
  · rw [hu]
    simp only [Git.redo, List.getLast?_concat]
    exact h3.symm

/-- Witness for C1: the spec's concrete scenario: after adding `src/App.js`
with `console.log('hi')`, committing, adding `console.log('bye')` and
committing, `undo` restores the `hi` body and a following `redo` restores
the `bye` body. -/
theorem claim_C1_witness :
    contentOf (Git.undo scenarioGit).assets = [(appJs, hiBody)] ∧
    contentOf (Git.redo (Git.undo scenarioGit)).assets = [(appJs, byeBody)] := by
  have h := claim_C1 scenarioGit (by decide) (by decide) (by decide)
  exact ⟨h.1.trans (by decide), h.2.trans (by decide)⟩

/-! Claim C3. -/

/-- C3: `commit` truncates the commit list to `head+1` entries, appends the
new snapshot, advances the head to the last index, and empties the redo
stack; consequently `redo` immediately after any commit is a no-op. -/
theorem claim_C3 (g : Git) (msg : PyStr) (h1 : -1 ≤ g.head)
    (h2 : g.head < (g.commits.length : Int)) :
    (Git.commit g msg).commits
      = g.commits.take (g.head + 1).toNat ++ [(g.assets, msg)] ∧
    (Git.commit g msg).head = g.head + 1 ∧
    ((Git.commit g msg).head : Int) = ((Git.commit g msg).commits.length : Int) - 1 ∧
    (Git.commit g msg).redoStack = [] ∧
    Git.redo (Git.commit g msg) = Git.commit g msg := by
  refine ⟨rfl, rfl, ?_, rfl, rfl⟩
  have hlen : (Git.commit g msg).commits.length = (g.head + 1).toNat + 1 := by
    simp only [Git.commit, List.length_append, List.length_take, List.length_cons,
      List.length_nil]
    omega
  rw [hlen]
  simp only [Git.commit]
  omega

/-- Witness for C3: the theorem applied to the concrete scenario state after
one undo (so a previously redoable future exists and is discarded). -/
theorem claim_C3_witness :
    (Git.commit (Git.undo scenarioGit) (pyOfString "c3")).redoStack = [] ∧
    Git.redo (Git.commit (Git.undo scenarioGit) (pyOfString "c3"))
      = Git.commit (Git.undo scenarioGit) (pyOfString "c3") ∧
    ((Git.commit (Git.undo scenarioGit) (pyOfString "c3")).head : Int)
      = ((Git.commit (Git.undo scenarioGit) (pyOfString "c3")).commits.length : Int) - 1 := by
  have h := claim_C3 (Git.undo scenarioGit) (pyOfString "c3") (by decide) (by decide)
  exact ⟨h.2.2.2.1, h.2.2.2.2, h.2.2.1⟩

/-! Claim C9: lemmas about add_asset. -/

theorem findMatchIdx_eq_none (p : PyStr) (l : List CodeBlock)
    (h : findMatchIdx p l = none) : ∀ a ∈ l, a.head.path ≠ p := by
  induction l with
  | nil => simp
  | cons a l ih =>
    intro b hb
    simp only [findMatchIdx] at h
    by_cases ha : a.head.path = p
    · simp [ha] at h
    · simp only [ha, if_false] at h
      cases hr : findMatchIdx p l with
      | some j => rw [hr] at h; simp at h
      | none =>
        rcases List.mem_cons.mp hb with hb | hb
        · subst hb; exact ha
        · exact ih hr b hb

theorem findMatchIdx_eq_some (p : PyStr) (l : List CodeBlock) (i : Nat)
    (h : findMatchIdx p l = some i) :
    ∃ a, l.get? i = some a ∧ a.head.path = p := by
  induction l generalizing i with
  | nil => simp [findMatchIdx] at h
  | cons a l ih =>
    simp only [findMatchIdx] at h
    by_cases ha : a.head.path = p
    · simp only [ha, if_true, Option.some_inj] at h
      subst h
      exact ⟨a, rfl, ha⟩
    · simp only [ha, if_false] at h
      cases hr : findMatchIdx p l with
      | none => rw [hr] at h; simp at h
      | some j =>
        rw [hr] at h
        simp only [Option.map_some', Option.some_inj] at h
        subst h
        obtain ⟨b, hb1, hb2⟩ := ih j hr
        exact ⟨b, hb1, hb2⟩

theorem list_set_self {α : Type} (l : List α) (i : Nat) (x : α)
    (h : l.get? i = some x) : l.set i x = l := by
  induction l generalizing i with
  | nil => simp [List.get?] at h
  | cons a l ih =>
    cases i with
    | zero =>
      rw [List.get?_cons_zero, Option.some_inj] at h
      subst h
      rfl
    | succ j =>
      rw [List.get?_cons_succ] at h
      show a :: l.set j x = a :: l
      rw [ih j h]

theorem addAsset_paths (g : Git) (p c : PyStr) :
    pathsOf (g.addAsset p c).assets
      = if p ∈ pathsOf g.assets then pathsOf g.assets else pathsOf g.assets ++ [p] := by
  cases hf : findMatchIdx p g.assets with
  | none =>
    have hmem : p ∉ pathsOf g.assets := by
      intro hm
      obtain ⟨a, ha, hpa⟩ := List.mem_map.mp hm
      exact findMatchIdx_eq_none p g.assets hf a ha hpa
    rw [if_neg hmem]
    simp [Git.addAsset, hf, pathsOf]
  | some i =>
    obtain ⟨a, ha, hpa⟩ := findMatchIdx_eq_some p g.assets i hf
    have hmem : p ∈ pathsOf g.assets := by
      rw [← hpa]
      exact List.mem_map_of_mem _ (List.get?_mem ha)
    have hget : (List.map (fun a => a.head.path) g.assets).get? i = some p := by
      rw [List.get?_map, ha]
      simp [hpa]
    have hassets : (g.addAsset p c).assets = g.assets.set i ⟨⟨p⟩, mkBody c⟩ := by
      simp [Git.addAsset, hf]
    rw [if_pos hmem, hassets]
    simp only [pathsOf, List.map_set]
    exact list_set_self _ i _ hget

theorem addAsset_length (g : Git) (p c : PyStr) :
    (g.addAsset p c).assets.length
      = if p ∈ pathsOf g.assets then g.assets.length else g.assets.length + 1 := by
  cases hf : findMatchIdx p g.assets with
  | none =>
    have hmem : p ∉ pathsOf g.assets := by
      intro hm
      obtain ⟨a, ha, hpa⟩ := List.mem_map.mp hm
      exact findMatchIdx_eq_none p g.assets hf a ha hpa
    simp [Git.addAsset, hf, hmem]
  | some i =>
    obtain ⟨a, ha, hpa⟩ := findMatchIdx_eq_some p g.assets i hf
    have hmem : p ∈ pathsOf g.assets := by
      rw [← hpa]
      exact List.mem_map_of_mem _ (List.get?_mem ha)
    simp [Git.addAsset, hf, hmem]

theorem applyAdds_invariant (ops : List (PyStr × PyStr)) :
    ∀ g : Git, (pathsOf g.assets).Nodup →
      (pathsOf (applyAdds g ops).assets).Nodup ∧
      (pathsOf (applyAdds g ops).assets).toFinset
        = (pathsOf g.assets).toFinset ∪ (ops.map Prod.fst).toFinset := by
  induction ops with
  | nil => intro g hnd; simpa [applyAdds] using hnd
  | cons pc rest ih =>
    intro g hnd
    have hstep : applyAdds g (pc :: rest) = applyAdds (g.addAsset pc.1 pc.2) rest := rfl
    rw [hstep]
    by_cases hmem : pc.1 ∈ pathsOf g.assets
    · have hp : pathsOf (g.addAsset pc.1 pc.2).assets = pathsOf g.assets := by
        rw [addAsset_paths, if_pos hmem]
      obtain ⟨n2, t2⟩ := ih (g.addAsset pc.1 pc.2) (hp ▸ hnd)
      refine ⟨n2, ?_⟩
      rw [t2, hp, List.map_cons, List.toFinset_cons]
      have hin : pc.1 ∈ (pathsOf g.assets).toFinset := List.mem_toFinset.mpr hmem
      rw [Finset.union_insert, Finset.insert_eq_self.mpr (Finset.mem_union_left _ hin)]
    · have hp : pathsOf (g.addAsset pc.1 pc.2).assets = pathsOf g.assets ++ [pc.1] := by
        rw [addAsset_paths, if_neg hmem]
      have hnd2 : (pathsOf g.assets ++ [pc.1]).Nodup := by
        rw [(List.perm_append_singleton pc.1 (pathsOf g.assets)).nodup_iff,
          List.nodup_cons]
        exact ⟨hmem, hnd⟩
      obtain ⟨n2, t2⟩ := ih (g.addAsset pc.1 pc.2) (hp ▸ hnd2)
      refine ⟨n2, ?_⟩
      rw [t2, hp, List.toFinset_append, List.map_cons, List.toFinset_cons,
        Finset.union_assoc]
      ext y
      simp only [Finset.mem_union, Finset.mem_insert, List.mem_toFinset,
        List.mem_singleton, List.mem_cons]
      tauto

/-- C9: after any sequence of `add_asset` calls from the empty collection, no
two assets share a path and the length equals the number of distinct paths
added; updating an existing path keeps the length and the path order
unchanged. -/
theorem claim_C9 :
    (∀ root ops,
      (pathsOf (applyAdds (Git.init root) ops).assets).Nodup ∧
      (applyAdds (Git.init root) ops).assets.length
        = (ops.map Prod.fst).toFinset.card) ∧
    (∀ (g : Git) (p c : PyStr), p ∈ pathsOf g.assets →
      (g.addAsset p c).assets.length = g.assets.length ∧
      pathsOf (g.addAsset p c).assets = pathsOf g.assets) := by
  constructor
  · intro root ops
    obtain ⟨hn, ht⟩ := applyAdds_invariant ops (Git.init root) (by simp [Git.init, pathsOf])
    refine ⟨hn, ?_⟩
    have hlen : (applyAdds (Git.init root) ops).assets.length
        = (pathsOf (applyAdds (Git.init root) ops).assets).length := by
      simp [pathsOf]
    rw [hlen, ← List.toFinset_card_of_nodup hn, ht]
    simp [Git.init, pathsOf]
  · intro g p c hmem
    exact ⟨by rw [addAsset_length, if_pos hmem], by rw [addAsset_paths, if_pos hmem]⟩

/-- Witness for C9: three adds with one repeated path yield two assets with
distinct paths, and updating an existing path preserves length and order. -/
theorem claim_C9_witness :
    (pathsOf (applyAdds (Git.init (pyOfString "src"))
        [(appJs, hiBody), (pyOfString "src/b.ts", hiBody), (appJs, byeBody)]).assets).Nodup ∧
    (applyAdds (Git.init (pyOfString "src"))
        [(appJs, hiBody), (pyOfString "src/b.ts", hiBody), (appJs, byeBody)]).assets.length
      = ([appJs, pyOfString "src/b.ts", appJs].toFinset).card ∧
    (scenarioGit.addAsset appJs hiBody).assets.length = scenarioGit.assets.length ∧
    pathsOf (scenarioGit.addAsset appJs hiBody).assets = pathsOf scenarioGit.assets := by
  have h1 := claim_C9.1 (pyOfString "src")
    [(appJs, hiBody), (pyOfString "src/b.ts", hiBody), (appJs, byeBody)]
  have h2 := claim_C9.2 scenarioGit appJs hiBody (by decide)
  exact ⟨h1.1, h1.2, h2.1, h2.2⟩

/-! Claim C2: the heap model. -/

theorem applyMOp_heap_get (s : RState) (op : MOp) (r : Nat) (h : r < s.heap.length) :
    heapGet (applyMOp s op).heap r = heapGet s.heap r := by
  cases op with
  | add filename content =>
    have hgoal : ∀ t : RState, t.heap = s.heap ++ [(⟨⟨filename⟩, mkBody content⟩ : CodeBlock)] →
        heapGet t.heap r = heapGet s.heap r := by
      intro t ht
      rw [ht, heapGet, List.getD_append _ _ _ _ h, heapGet]
    simp only [applyMOp, RState.addAsset]
    cases hf : findMatchIdxR s.heap filename s.assets with
    | some i => exact hgoal _ rfl
    | none => exact hgoal _ rfl
  | remove filename => rfl

theorem applyMOp_heap_length (s : RState) (op : MOp) :
    s.heap.length ≤ (applyMOp s op).heap.length := by
  cases op with
  | add filename content =>
    simp only [applyMOp, RState.addAsset]
    cases hf : findMatchIdxR s.heap filename s.assets with
    | some i => simp
    | none => simp
  | remove filename => exact le_refl _

theorem applyMOps_heap_get (ops : List MOp) :
    ∀ (s : RState) (r : Nat), r < s.heap.length →
      heapGet (applyMOps s ops).heap r = heapGet s.heap r := by
  induction ops with
  | nil => intro s r _; rfl
  | cons op rest ih =>
    intro s r hr
    have hstep : applyMOps s (op :: rest) = applyMOps (applyMOp s op) rest := rfl
    rw [hstep, ih (applyMOp s op) r (lt_of_lt_of_le hr (applyMOp_heap_length s op)),
      applyMOp_heap_get s op r hr]

/-- C2 (counterexample): `commit` stores `self.assets.copy()`, a shallow copy
of the reference list; after committing, a direct in-place mutation of the
asset's body (as in the repository's own `test_push`) changes the content of
the already committed snapshot, so the snapshot is not a deep copy. -/
theorem claim_C2_counterexample :
    refContent
        ((((RState.init (pyOfString "src")).addAsset appJs hiBody).commit
            (pyOfString "m")).mutateBody 0 byeBody).heap
        (((((RState.init (pyOfString "src")).addAsset appJs hiBody).commit
            (pyOfString "m")).mutateBody 0 byeBody).commits.getD 0 ([], [])).1
      ≠ refContent
        ((((RState.init (pyOfString "src")).addAsset appJs hiBody).commit
            (pyOfString "m")).heap)
        ((((RState.init (pyOfString "src")).addAsset appJs hiBody).commit
            (pyOfString "m")).commits.getD 0 ([], [])).1 := by decide

/-- C2 (amended): the snapshot taken by `commit` is a shallow copy (the same
reference list as the live collection at commit time); under mutation through
the store's own collection API (`add_asset`, which always allocates a fresh
object, and `remove_asset`, which only drops references) the content of every
reference list whose references were already allocated — in particular every
previously committed snapshot — is preserved; only direct in-place mutation
of an asset's body can alter committed history. -/
theorem claim_C2_amended :
    (∀ (s : RState) (msg : PyStr),
      (RState.commit s msg).commits.getLast? = some (s.assets, msg)) ∧
    (∀ (s : RState) (ops : List MOp) (snap : List Nat),
      (∀ r ∈ snap, r < s.heap.length) →
      refContent (applyMOps s ops).heap snap = refContent s.heap snap) := by
  constructor
  · intro s msg
    simp only [RState.commit]
    exact List.getLast?_concat _
  · intro s ops snap hsnap
    simp only [refContent]
    exact List.map_congr_left fun r hr => by
      rw [applyMOps_heap_get ops s r (hsnap r hr)]

/-- Witness for C2: after a commit, an `add_asset` update and a
`remove_asset` leave the committed snapshot's content unchanged. -/
theorem claim_C2_amended_witness :
    ((((RState.init (pyOfString "src")).addAsset appJs hiBody).commit
        (pyOfString "m")).commits.getLast?
      = some ((((RState.init (pyOfString "src")).addAsset appJs hiBody)).assets,
          pyOfString "m")) ∧
    refContent
        (applyMOps (((RState.init (pyOfString "src")).addAsset appJs hiBody).commit
            (pyOfString "m"))
          [MOp.add appJs byeBody, MOp.remove appJs]).heap [0]
      = refContent ((((RState.init (pyOfString "src")).addAsset appJs hiBody).commit
            (pyOfString "m"))).heap [0] :=
  ⟨claim_C2_amended.1 (((RState.init (pyOfString "src")).addAsset appJs hiBody))
      (pyOfString "m"),
   claim_C2_amended.2 (((RState.init (pyOfString "src")).addAsset appJs hiBody).commit
      (pyOfString "m")) [MOp.add appJs byeBody, MOp.remove appJs] [0] (by decide)⟩

/-! Claim C5: rendering, extension dispatch and re-extraction. -/

theorem endsWith_srcPath (run e : PyStr) :
    pyEndsWith (srcPath run e) ('.' :: e) = true := by
  rw [pyEndsWith, List.isSuffixOf_iff_suffix]
  have hsp : srcPath run e = ('s' :: 'r' :: 'c' :: '/' :: run) ++ '.' :: e := by
    simp [srcPath]
  rw [hsp]
  exact List.suffix_append _ _

theorem not_endsWith_srcPath (run e suf : PyStr)
    (h1 : ¬ ('.' :: suf <:+ '.' :: e)) (h2 : ¬ ('.' :: e <:+ '.' :: suf)) :
    pyEndsWith (srcPath run e) ('.' :: suf) = false := by
  cases hx : pyEndsWith (srcPath run e) ('.' :: suf) with
  | false => rfl
  | true =>
    exfalso
    rw [pyEndsWith, List.isSuffixOf_iff_suffix] at hx
    have he : ('.' :: e) <:+ srcPath run e := by
      have hsp : srcPath run e = ('s' :: 'r' :: 'c' :: '/' :: run) ++ '.' :: e := by
        simp [srcPath]
      rw [hsp]
      exact List.suffix_append _ _
    rcases List.suffix_or_suffix_of_suffix hx he with h | h
    · exact h1 h
    · exact h2 h

theorem codeType_srcPath_js (run : PyStr) :
    codeType (srcPath run extJs) = pyOfString "javascript" := by
  simp [codeType, endsWith_srcPath]

theorem codeType_srcPath_ts (run : PyStr) :
    codeType (srcPath run extTs) = pyOfString "typescript" := by
  have h1 := not_endsWith_srcPath run extTs extJs (by decide) (by decide)
  simp [codeType, h1, endsWith_srcPath]

theorem codeType_srcPath_dart (run : PyStr) :
    codeType (srcPath run extDart) = pyOfString "dart" := by
  have h1 := not_endsWith_srcPath run extDart extJs (by decide) (by decide)
  have h2 := not_endsWith_srcPath run extDart extTs (by decide) (by decide)
  simp [codeType, h1, h2, endsWith_srcPath]

theorem codeType_srcPath_css (run : PyStr) :
    codeType (srcPath run extCss) = pyOfString "css" := by
  have h1 := not_endsWith_srcPath run extCss extJs (by decide) (by decide)
  have h2 := not_endsWith_srcPath run extCss extTs (by decide) (by decide)
  have h3 := not_endsWith_srcPath run extCss extDart (by decide) (by decide)
  simp [codeType, h1, h2, h3, endsWith_srcPath]

theorem asComment_srcPath_line (run e : PyStr)
    (he : e = extJs ∨ e = extTs ∨ e = extDart) :
    asComment (srcPath run e) = ('/' :: '/' :: ' ' :: srcPath run e) ++ ['\n'] := by
  rcases he with he | he | he <;> subst he
  · simp [asComment, endsWith_srcPath]
  · have h1 := not_endsWith_srcPath run extTs extJs (by decide) (by decide)
    simp [asComment, h1, endsWith_srcPath]
  · have h1 := not_endsWith_srcPath run extDart extJs (by decide) (by decide)
    have h2 := not_endsWith_srcPath run extDart extTs (by decide) (by decide)
    simp [asComment, h1, h2, endsWith_srcPath]

theorem asComment_srcPath_block (run : PyStr) :
    asComment (srcPath run extCss)
      = ('/' :: '*' :: ' ' :: (srcPath run extCss ++ [' ', '*', '/'])) ++ ['\n'] := by
  have h1 := not_endsWith_srcPath run extCss extJs (by decide) (by decide)
  have h2 := not_endsWith_srcPath run extCss extTs (by decide) (by decide)
  have h3 := not_endsWith_srcPath run extCss extDart (by decide) (by decide)
  simp [asComment, h1, h2, h3, endsWith_srcPath]

theorem nl_not_mem_srcPath (run e : PyStr) (hrun : ∀ c ∈ run, isClassChar c = true)
    (he : e = extJs ∨ e = extTs ∨ e = extDart ∨ e = extCss) :
    '\n' ∉ srcPath run e := by
  intro hmem
  simp only [srcPath, List.mem_cons, List.mem_append] at hmem
  rcases hmem with h | h | h | h | h | h | h
  · exact absurd h (by decide)
  · exact absurd h (by decide)
  · exact absurd h (by decide)
  · exact absurd h (by decide)
  · exact absurd (hrun '\n' h) (by decide)
  · exact absurd h (by decide)
  · rcases he with he | he | he | he <;> subst he <;> revert h <;> decide

theorem pyStrip_of_ends (c : Char) (cs : PyStr) (hc : isPySpace c = false) (c0 : Char)
    (hg : (c :: cs).getLast? = some c0) (hc0 : isPySpace c0 = false) :
    pyStrip (c :: cs) = c :: cs := by
  rw [pyStrip, lstrip_cons_of_not_space c cs hc]
  have h := rstrip_append (c :: cs) [] c0 hg hc0
  have h2 : rstrip ([] : PyStr) = [] := rfl
  rw [h2, List.append_nil] at h
  exact h

theorem repr_decomp (p cl ct : PyStr) (b : Body)
    (hct : codeType p = ct) (hac : asComment p = cl ++ ['\n'])
    (hctnl : '\n' ∉ ct) (hclnl : '\n' ∉ cl) :
    splitLines (reprCodeBlock ⟨⟨p⟩, b⟩)
      = ('`' :: '`' :: '`' :: ct) :: cl :: (splitLines b.code ++ [['`', '`', '`']]) := by
  have hshape : reprCodeBlock ⟨⟨p⟩, b⟩
      = ('`' :: '`' :: '`' :: ct)
          ++ '\n' :: (cl ++ '\n' :: (b.code ++ '\n' :: ['`', '`', '`'])) := by
    simp [reprCodeBlock, hct, hac]
  rw [hshape]
  show splitOnChar '\n' _ = _
  rw [splitOnChar_append_sep, splitOnChar_append_sep,
    splitOnChar_of_not_mem '\n' _ (by
      intro hm
      rcases List.mem_cons.mp hm with h | h
      · exact absurd h (by decide)
      · rcases List.mem_cons.mp h with h | h
        · exact absurd h (by decide)
        · rcases List.mem_cons.mp h with h | h
          · exact absurd h (by decide)
          · exact hctnl h),
    splitOnChar_of_not_mem '\n' cl hclnl, splitOnChar_append_sep,
    splitOnChar_of_not_mem '\n' ['`', '`', '`'] (by decide)]
  simp [splitLines]

theorem getD_one_repr (p cl ct : PyStr) (b : Body)
    (hct : codeType p = ct) (hac : asComment p = cl ++ ['\n'])
    (hctnl : '\n' ∉ ct) (hclnl : '\n' ∉ cl) :
    (splitLines (reprCodeBlock ⟨⟨p⟩, b⟩)).getD 1 [] = cl := by
  rw [repr_decomp p cl ct b hct hac hctnl hclnl]
  rfl

theorem innerOfFence_repr (p cl ct : PyStr) (b : Body)
    (hct : codeType p = ct) (hac : asComment p = cl ++ ['\n'])
    (hctnl : '\n' ∉ ct) (hclnl : '\n' ∉ cl) :
    innerOfFence (reprCodeBlock ⟨⟨p⟩, b⟩) = cl ++ '\n' :: b.code := by
  rw [innerOfFence, repr_decomp p cl ct b hct hac hctnl hclnl]
  have hdrop : ((('`' :: '`' :: '`' :: ct) :: cl
      :: (splitLines b.code ++ [['`', '`', '`']])).drop 1).dropLast
      = cl :: splitLines b.code := by
    show (cl :: (splitLines b.code ++ [['`', '`', '`']])).dropLast = cl :: splitLines b.code
    rw [show cl :: (splitLines b.code ++ [['`', '`', '`']])
        = (cl :: splitLines b.code) ++ [['`', '`', '`']] from by simp,
      List.dropLast_concat]
  rw [hdrop]
  cases hs : splitLines b.code with
  | nil => exact absurd hs (splitOnChar_ne_nil '\n' b.code)
  | cons m ms =>
    show joinWithChar '\n' (cl :: m :: ms) = cl ++ '\n' :: b.code
    have hj : joinWithChar '\n' (cl :: m :: ms) = cl ++ '\n' :: joinWithChar '\n' (m :: ms) :=
      rfl
    rw [hj, ← hs]
    have : joinWithChar '\n' (splitLines b.code) = b.code := joinWithChar_splitOnChar '\n' _
    rw [this]

/-! Idempotence-style facts about extract_body. -/

theorem extractBody_cases (raw : PyStr) :
    extractBody raw = [] ∨
    ∃ m ms, splitLines (extractBody raw) = m :: ms ∧ lineSkippable m = false := by
  rw [extractBody_eq_dropWhile]
  cases hd : (splitLines raw).dropWhile lineSkippable with
  | nil => left; rfl
  | cons m ms =>
    right
    refine ⟨m, ms, ?_, dropWhile_eq_cons_head_false _ _ _ _ hd⟩
    show splitOnChar '\n' (joinWithChar '\n' (m :: ms)) = m :: ms
    apply splitOnChar_joinWithChar
    · simp
    · intro l hl
      have hsub : l ∈ (splitLines raw).dropWhile lineSkippable := by rw [hd]; exact hl
      exact mem_splitOnChar_not_sep '\n' raw l ((List.dropWhile_sublist _).subset hsub)

theorem extractBody_idem (raw : PyStr) :
    extractBody (extractBody raw) = extractBody raw := by
  rcases extractBody_cases raw with h | ⟨m, ms, hs, hm⟩
  · rw [h]; rfl
  · rw [extractBody_eq_dropWhile, hs, List.dropWhile_cons, if_neg (by simp [hm]), ← hs]
    exact joinWithChar_splitOnChar '\n' _

theorem extractBody_comment_body (cl bdy raw : PyStr) (hcl : lineSkippable cl = true)
    (hclnl : '\n' ∉ cl) (hb : bdy = extractBody raw) :
    extractBody (cl ++ '\n' :: bdy) = bdy := by
  rw [extractBody_eq_dropWhile]
  have hs : splitLines (cl ++ '\n' :: bdy) = [cl] ++ splitLines bdy := by
    show splitOnChar '\n' (cl ++ '\n' :: bdy) = [cl] ++ splitLines bdy
    rw [splitOnChar_append_sep, splitOnChar_of_not_mem '\n' cl hclnl]
    rfl
  rw [hs]
  show joinLines (List.dropWhile lineSkippable (cl :: splitLines bdy)) = bdy
  rw [List.dropWhile_cons, if_pos hcl]
  subst hb
  rcases extractBody_cases raw with h | ⟨m, ms, hsb, hm⟩
  · rw [h]
    rfl
  · rw [hsb, List.dropWhile_cons, if_neg (by simp [hm]), ← hsb]
    exact joinWithChar_splitOnChar '\n' _

/-- Round trip through the rendered block for the line-comment extensions. -/
theorem roundTrip_line (run e raw ct : PyStr) (h1 : run ≠ [])
    (h2 : ∀ c ∈ run, isClassChar c = true) (hpnl : '\n' ∉ srcPath run e)
    (he : e = extJs ∨ e = extTs ∨ e = extDart)
    (hct : codeType (srcPath run e) = ct) (hctnl : '\n' ∉ ct) :
    fromComment ((splitLines (reprCodeBlock ⟨⟨srcPath run e⟩, mkBody raw⟩)).getD 1 [])
      = some (srcPath run e) ∧
    extractBody (innerOfFence (reprCodeBlock ⟨⟨srcPath run e⟩, mkBody raw⟩))
      = (mkBody raw).code := by
  have hac := asComment_srcPath_line run e he
  have hclnl : '\n' ∉ ('/' :: '/' :: ' ' :: srcPath run e) := by
    intro hm
    rcases List.mem_cons.mp hm with h | h
    · exact absurd h (by decide)
    · rcases List.mem_cons.mp h with h | h
      · exact absurd h (by decide)
      · rcases List.mem_cons.mp h with h | h
        · exact absurd h (by decide)
        · exact hpnl h
  have hfc : fromComment ('/' :: '/' :: ' ' :: srcPath run e) = some (srcPath run e) := by
    have h := fromComment_js_complete run e [] h1 h2 he
    rwa [List.append_nil] at h
  obtain ⟨c0, hg, hns⟩ : ∃ c0, (srcPath run e).getLast? = some c0 ∧ isPySpace c0 = false := by
    have hsp : srcPath run e = ('s' :: 'r' :: 'c' :: '/' :: run) ++ '.' :: e := by
      simp [srcPath]
    rcases he with he | he | he <;> subst he
    · exact ⟨'s', by rw [hsp, getLast?_append_cons]; rfl, by decide⟩
    · exact ⟨'s', by rw [hsp, getLast?_append_cons]; rfl, by decide⟩
    · exact ⟨'t', by rw [hsp, getLast?_append_cons]; rfl, by decide⟩
  have hga : ('/' :: '/' :: ' ' :: srcPath run e).getLast? = some c0 := by
    have h := getLast?_append_cons ['/', '/', ' '] 's'
      ('r' :: 'c' :: '/' :: (run ++ '.' :: e))
    exact h.trans hg
  have hstrip : pyStrip ('/' :: '/' :: ' ' :: srcPath run e)
      = '/' :: '/' :: ' ' :: srcPath run e :=
    pyStrip_of_ends '/' ('/' :: ' ' :: srcPath run e) (by decide) c0 hga hns
  have hsk : lineSkippable ('/' :: '/' :: ' ' :: srcPath run e) = true := by
    simp [lineSkippable, hstrip, hfc]
  constructor
  · rw [getD_one_repr (srcPath run e) _ ct (mkBody raw) hct hac hctnl hclnl]
    exact hfc
  · rw [innerOfFence_repr (srcPath run e) _ ct (mkBody raw) hct hac hctnl hclnl]
    exact extractBody_comment_body _ _ raw hsk hclnl rfl

/-- Round trip through the rendered block for the css extension. -/
theorem roundTrip_block (run raw : PyStr) (h1 : run ≠ [])
    (h2 : ∀ c ∈ run, isClassChar c = true) (hpnl : '\n' ∉ srcPath run extCss) :
    fromComment ((splitLines (reprCodeBlock ⟨⟨srcPath run extCss⟩, mkBody raw⟩)).getD 1 [])
      = some (srcPath run extCss) ∧
    extractBody (innerOfFence (reprCodeBlock ⟨⟨srcPath run extCss⟩, mkBody raw⟩))
      = (mkBody raw).code := by
  have hac := asComment_srcPath_block run
  have hclnl : '\n' ∉ ('/' :: '*' :: ' ' :: (srcPath run extCss ++ [' ', '*', '/'])) := by
    intro hm
    rcases List.mem_cons.mp hm with h | h
    · exact absurd h (by decide)
    · rcases List.mem_cons.mp h with h | h
      · exact absurd h (by decide)
      · rcases List.mem_cons.mp h with h | h
        · exact absurd h (by decide)
        · rcases List.mem_append.mp h with h | h
          · exact hpnl h
          · exact absurd h (by decide)
  have hfc : fromComment ('/' :: '*' :: ' ' :: (srcPath run extCss ++ [' ', '*', '/']))
      = some (srcPath run extCss) :=
    fromComment_css_complete run [] h1 h2
  have hga : ('/' :: '*' :: ' ' :: (srcPath run extCss ++ [' ', '*', '/'])).getLast?
      = some '/' := by
    have hsh : '/' :: '*' :: ' ' :: (srcPath run extCss ++ [' ', '*', '/'])
        = ('/' :: '*' :: ' ' :: srcPath run extCss) ++ ' ' :: ['*', '/'] := by simp
    rw [hsh, getLast?_append_cons]
    rfl
  have hstrip : pyStrip ('/' :: '*' :: ' ' :: (srcPath run extCss ++ [' ', '*', '/']))
      = '/' :: '*' :: ' ' :: (srcPath run extCss ++ [' ', '*', '/']) :=
    pyStrip_of_ends '/' ('*' :: ' ' :: (srcPath run extCss ++ [' ', '*', '/'])) (by decide)
      '/' hga (by decide)
  have hsk : lineSkippable ('/' :: '*' :: ' ' :: (srcPath run extCss ++ [' ', '*', '/']))
      = true := by
    simp [lineSkippable, hstrip, hfc]
  constructor
  · rw [getD_one_repr (srcPath run extCss) _ (pyOfString "css") (mkBody raw)
      (codeType_srcPath_css run) hac (by decide) hclnl]
    exact hfc
  · rw [innerOfFence_repr (srcPath run extCss) _ (pyOfString "css") (mkBody raw)
      (codeType_srcPath_css run) hac (by decide) hclnl]
    exact extractBody_comment_body _ _ raw hsk hclnl rfl

/-- C5 (counterexample): the first line of `a.to_text()` is the opening fence
line (for example ```` ```javascript ````), which `recognize_path` rejects,
and `extract_body` applied to the whole rendered text keeps every line from
the opening fence on, so neither half of the round trip holds on `to_text()`
itself. -/
theorem claim_C5_counterexample :
    fromComment (firstLineOf (reprCodeBlock ⟨⟨appJs⟩, mkBody (pyOfString "body()")⟩))
      = none ∧
    extractBody (reprCodeBlock ⟨⟨appJs⟩, mkBody (pyOfString "body()")⟩)
      ≠ (mkBody (pyOfString "body()")).code := by decide

/-- C5 (amended): for an asset whose path has the recognized shape (src-rooted
run of word characters with a recognized extension), the round trip holds one
line inside the fence: the first line after the opening fence of `to_text()`
recognizes back to the asset's path, and `extract_body` applied to the text
between the fences returns the asset's body. -/
theorem claim_C5_amended (run e raw : PyStr) (h1 : run ≠ [])
    (h2 : ∀ c ∈ run, isClassChar c = true)
    (he : e = extJs ∨ e = extTs ∨ e = extDart ∨ e = extCss) :
    fromComment ((splitLines (reprCodeBlock ⟨⟨srcPath run e⟩, mkBody raw⟩)).getD 1 [])
      = some (srcPath run e) ∧
    extractBody (innerOfFence (reprCodeBlock ⟨⟨srcPath run e⟩, mkBody raw⟩))
      = (mkBody raw).code := by
  have hpnl : '\n' ∉ srcPath run e := nl_not_mem_srcPath run e h2 he
  rcases he with he | he | he | he <;> subst he
  · exact roundTrip_line run extJs raw (pyOfString "javascript") h1 h2 hpnl (Or.inl rfl)
      (codeType_srcPath_js run) (by decide)
  · exact roundTrip_line run extTs raw (pyOfString "typescript") h1 h2 hpnl
      (Or.inr (Or.inl rfl)) (codeType_srcPath_ts run) (by decide)
  · exact roundTrip_line run extDart raw (pyOfString "dart") h1 h2 hpnl
      (Or.inr (Or.inr rfl)) (codeType_srcPath_dart run) (by decide)
  · exact roundTrip_block run raw h1 h2 hpnl

/-- Witness for C5: the amended round trip at a concrete asset. -/
theorem claim_C5_amended_witness :
    fromComment ((splitLines (reprCodeBlock
        ⟨⟨srcPath (pyOfString "App") extJs⟩, mkBody (pyOfString "\nbody()\n")⟩)).getD 1 [])
      = some (srcPath (pyOfString "App") extJs) ∧
    extractBody (innerOfFence (reprCodeBlock
        ⟨⟨srcPath (pyOfString "App") extJs⟩, mkBody (pyOfString "\nbody()\n")⟩))
      = (mkBody (pyOfString "\nbody()\n")).code :=
  claim_C5_amended (pyOfString "App") extJs (pyOfString "\nbody()\n")
    (by decide) (by decide) (Or.inl rfl)

/-! Claim C6: extraction selectivity. -/

theorem parseCodeBlock_char (b : PyStr) :
    parseCodeBlock b
      = if recognizedBlock b then some ⟨⟨pathOfBlock b⟩, mkBody b⟩ else none := by
  simp only [parseCodeBlock, recognizedBlock, pathOfBlock]
  cases hf : firstNonBlank (splitLines b) with
  | none => simp
  | some fl =>
    show (match fromComment fl with
        | some p => some (⟨⟨p⟩, mkBody (joinLines (splitLines b))⟩ : CodeBlock)
        | none => none)
      = if (fromComment fl).isSome = true
        then some (⟨⟨(fromComment fl).getD []⟩, mkBody b⟩ : CodeBlock) else none
    cases hc : fromComment fl with
    | none => simp
    | some p =>
      have hj : joinLines (splitLines b) = b := joinWithChar_splitOnChar '\n' b
      simp [hj]

theorem filterMap_eq_map_filter {α β : Type} (f : α → Option β) (pr : α → Bool)
    (g : α → β) (hf : ∀ a, f a = if pr a then some (g a) else none) (l : List α) :
    l.filterMap f = (l.filter pr).map g := by
  induction l with
  | nil => rfl
  | cons a l ih =>
    rw [List.filterMap_cons, hf a, List.filter_cons]
    by_cases hp : pr a
    · simp [hp, ih]
    · simp [hp, ih]

/-- C6: `extract_code_blocks` returns exactly the blocks whose first
non-blank line is a recognized path comment, in order, each with the
recognized path and the body extracted from the whole block; unrecognized
blocks are dropped without aborting the extraction (the function is total on
every response).  The spec's concrete scenario — two fenced blocks of which
one starts with `// src/App.js` — yields exactly that one asset. -/
theorem claim_C6 :
    (∀ text, extractCodeBlocks text
        = ((findBlocks text).filter recognizedBlock).map
            (fun b => ⟨⟨pathOfBlock b⟩, mkBody b⟩)) ∧
    (∀ text, (extractCodeBlocks text).length
        = ((findBlocks text).filter recognizedBlock).length) ∧
    extractCodeBlocks sampleResponse = [⟨⟨appJs⟩, ⟨pyOfString "foo()"⟩⟩] := by
  have hmain : ∀ text, extractCodeBlocks text
      = ((findBlocks text).filter recognizedBlock).map
          (fun b => ⟨⟨pathOfBlock b⟩, mkBody b⟩) := fun text =>
    filterMap_eq_map_filter parseCodeBlock recognizedBlock _ parseCodeBlock_char
      (findBlocks text)
  refine ⟨hmain, fun text => by rw [hmain text, List.length_map], by decide⟩

/-! Claim C8: push, write suppression and the frame property. -/

theorem pushStep_cases (root : PyStr) (acc : FS × List (PyStr × PyStr)) (a : CodeBlock) :
    pushStep root acc a = acc ∨
    pushStep root acc a
      = (fsWrite acc.1 (pyJoin root (pyRelpath a.head.path root)) a.body.code,
         acc.2 ++ [(pyJoin root (pyRelpath a.head.path root), a.body.code)]) := by
  by_cases h1 : root.isPrefixOf a.head.path
  · cases hl : fsLookup acc.1 (pyJoin root (pyRelpath a.head.path root)) with
    | some ex =>
      by_cases he : ex = a.body.code
      · left; simp [pushStep, h1, hl, he]
      · right; simp [pushStep, h1, hl, he]
    | none => right; simp [pushStep, h1, hl]
  · left; simp [pushStep, h1]

theorem fsLookup_cons (e : PyStr × PyStr) (fs : FS) (q : PyStr) :
    fsLookup (e :: fs) q = if e.1 = q then some e.2 else fsLookup fs q := by
  by_cases h : e.1 = q
  · rw [fsLookup, List.find?_cons_of_pos _ (by simpa using h), if_pos h]
    rfl
  · rw [fsLookup, List.find?_cons_of_neg _ (by simpa using h), if_neg h]
    rfl

theorem fsLookup_write (fs : FS) (p c q : PyStr) :
    fsLookup (fsWrite fs p c) q = if q = p then some c else fsLookup fs q := by
  induction fs with
  | nil =>
    rw [show fsWrite [] p c = [(p, c)] from rfl, fsLookup_cons]
    by_cases h : q = p
    · simp [h]
    · have h2 : ¬ p = q := fun hh => h hh.symm
      simp [h, h2]
  | cons e fs ih =>
    by_cases h1 : e.1 = p
    · rw [show fsWrite (e :: fs) p c = (p, c) :: fs from by simp [fsWrite, h1],
        fsLookup_cons, fsLookup_cons]
      by_cases h2 : q = p
      · simp [h2]
      · have h3 : ¬ p = q := fun hh => h2 hh.symm
        have h4 : ¬ e.1 = q := fun hh => h3 (h1.symm.trans hh)
        simp [h2, h3, h4]
    · rw [show fsWrite (e :: fs) p c = e :: fsWrite fs p c from by simp [fsWrite, h1],
        fsLookup_cons, fsLookup_cons, ih]
      by_cases h2 : e.1 = q
      · have hq : ¬ q = p := fun hh => h1 (h2.trans hh)
        simp [h2, hq]
      · simp [h2]

theorem push_writes_mono (root : PyStr) (assets : List CodeBlock) :
    ∀ acc : FS × List (PyStr × PyStr),
      ∃ w, (assets.foldl (pushStep root) acc).2 = acc.2 ++ w := by
  induction assets with
  | nil => intro acc; exact ⟨[], by simp⟩
  | cons a rest ih =>
    intro acc
    rw [List.foldl_cons]
    rcases pushStep_cases root acc a with h | h
    · rw [h]
      exact ih acc
    · rw [h]
      obtain ⟨w, hw⟩ := ih
        (fsWrite acc.1 (pyJoin root (pyRelpath a.head.path root)) a.body.code,
         acc.2 ++ [(pyJoin root (pyRelpath a.head.path root), a.body.code)])
      refine ⟨(pyJoin root (pyRelpath a.head.path root), a.body.code) :: w, ?_⟩
      rw [hw]
      simp

theorem push_frame_aux (root : PyStr) (assets : List CodeBlock) :
    ∀ (fs : FS) (log : List (PyStr × PyStr)) (q : PyStr),
      (∀ w ∈ (assets.foldl (pushStep root) (fs, log)).2, w.1 ≠ q) →
      fsLookup (assets.foldl (pushStep root) (fs, log)).1 q = fsLookup fs q := by
  induction assets with
  | nil => intro fs log q _; rfl
  | cons a rest ih =>
    intro fs log q hw
    rw [List.foldl_cons] at hw ⊢
    rcases pushStep_cases root (fs, log) a with h | h
    · rw [h] at hw ⊢
      exact ih fs log q hw
    · rw [h] at hw ⊢
      obtain ⟨w2, hw2⟩ := push_writes_mono root rest
        (fsWrite fs (pyJoin root (pyRelpath a.head.path root)) a.body.code,
         log ++ [(pyJoin root (pyRelpath a.head.path root), a.body.code)])
      have hfp : pyJoin root (pyRelpath a.head.path root) ≠ q := by
        apply hw (pyJoin root (pyRelpath a.head.path root), a.body.code)
        rw [hw2]
        simp
      rw [ih _ _ q hw, fsLookup_write, if_neg (fun hh => hfp hh.symm)]

/-- C8: for a store holding one asset, `push` leaves the filesystem untouched
and performs no write when the asset's path does not start with `root`, or
when the target file already holds exactly the asset's body; it writes the
body to the computed target location (recording exactly one write) when the
file is missing or differs.  In general, any path not among the performed
writes keeps its previous content (frame property). -/
theorem claim_C8 :
    (∀ (g : Git) (fs : FS) (a : CodeBlock), g.assets = [a] →
      (g.root.isPrefixOf a.head.path = false → Git.push g fs = (fs, [])) ∧
      (g.root.isPrefixOf a.head.path = true →
        (fsLookup fs (pyJoin g.root (pyRelpath a.head.path g.root)) = some a.body.code →
          Git.push g fs = (fs, [])) ∧
        (fsLookup fs (pyJoin g.root (pyRelpath a.head.path g.root)) ≠ some a.body.code →
          Git.push g fs
            = (fsWrite fs (pyJoin g.root (pyRelpath a.head.path g.root)) a.body.code,
               [(pyJoin g.root (pyRelpath a.head.path g.root), a.body.code)])))) ∧
    (∀ (g : Git) (fs : FS) (q : PyStr),
      (∀ w ∈ (Git.push g fs).2, w.1 ≠ q) →
      fsLookup (Git.push g fs).1 q = fsLookup fs q) := by
  constructor
  · intro g fs a ha
    have hpush : Git.push g fs = pushStep g.root (fs, []) a := by
      rw [Git.push, ha, List.foldl_cons]
      rfl
    refine ⟨fun h => ?_, fun h => ⟨fun hsame => ?_, fun hdiff => ?_⟩⟩
    · rw [hpush]
      simp [pushStep, h]
    · rw [hpush]
      simp [pushStep, h, hsame]
    · rw [hpush]
      simp only [pushStep, h, if_true]
      cases hl : fsLookup fs (pyJoin g.root (pyRelpath a.head.path g.root)) with
      | none => rfl
      | some ex =>
        have hne : ¬ ex = a.body.code := by
          intro hh
          exact hdiff (by rw [hl, hh])
        simp [hne]
  · intro g fs q hw
    exact push_frame_aux g.root g.assets fs [] q hw

/-- Witness for C8: with a single asset `src/App.js` holding `x()`, pushing
over a filesystem already holding `x()` performs no write; over a filesystem
holding `y()` it performs exactly one write; an asset outside the root is
skipped; and an untouched path keeps its content. -/
theorem claim_C8_witness :
    Git.push ⟨pyOfString "src", [⟨⟨appJs⟩, ⟨pyOfString "x()"⟩⟩], [], -1, []⟩
        [(appJs, pyOfString "x()")] = ([(appJs, pyOfString "x()")], []) ∧
    Git.push ⟨pyOfString "src", [⟨⟨appJs⟩, ⟨pyOfString "x()"⟩⟩], [], -1, []⟩
        [(appJs, pyOfString "y()")]
      = (fsWrite [(appJs, pyOfString "y()")] (pyJoin (pyOfString "src")
            (pyRelpath appJs (pyOfString "src"))) (pyOfString "x()"),
         [(pyJoin (pyOfString "src") (pyRelpath appJs (pyOfString "src")),
           pyOfString "x()")]) ∧
    Git.push ⟨pyOfString "src", [⟨⟨pyOfString "lib/a.js"⟩, ⟨pyOfString "x()"⟩⟩], [], -1, []⟩
        [] = ([], []) ∧
    fsLookup (Git.push ⟨pyOfString "src", [⟨⟨appJs⟩, ⟨pyOfString "x()"⟩⟩], [], -1, []⟩
        [(pyOfString "src/other.js", pyOfString "z()")]).1 (pyOfString "src/other.js")
      = fsLookup [(pyOfString "src/other.js", pyOfString "z()")] (pyOfString "src/other.js") := by
  have h1 := claim_C8.1 ⟨pyOfString "src", [⟨⟨appJs⟩, ⟨pyOfString "x()"⟩⟩], [], -1, []⟩
    [(appJs, pyOfString "x()")] ⟨⟨appJs⟩, ⟨pyOfString "x()"⟩⟩ rfl
  have h2 := claim_C8.1 ⟨pyOfString "src", [⟨⟨appJs⟩, ⟨pyOfString "x()"⟩⟩], [], -1, []⟩
    [(appJs, pyOfString "y()")] ⟨⟨appJs⟩, ⟨pyOfString "x()"⟩⟩ rfl
  have h3 := claim_C8.1 ⟨pyOfString "src",
    [⟨⟨pyOfString "lib/a.js"⟩, ⟨pyOfString "x()"⟩⟩], [], -1, []⟩
    [] ⟨⟨pyOfString "lib/a.js"⟩, ⟨pyOfString "x()"⟩⟩ rfl
  have h4 := claim_C8.2 ⟨pyOfString "src", [⟨⟨appJs⟩, ⟨pyOfString "x()"⟩⟩], [], -1, []⟩
    [(pyOfString "src/other.js", pyOfString "z()")] (pyOfString "src/other.js") (by decide)
  exact ⟨(h1.2 (by decide)).1 (by decide), (h2.2 (by decide)).2 (by decide),
    h3.1 (by decide), h4⟩

/-! Claim C10: path arithmetic and the fetch/push cycle. -/
theorem getLast?_mem_of (l : PyStr) (x : Char) (h : l.getLast? = some x) : x ∈ l := by
  rw [← List.head?_reverse] at h
  cases hr : l.reverse with
  | nil => rw [hr] at h; simp at h
  | cons y t =>
    rw [hr] at h
    simp only [List.head?_cons, Option.some_inj] at h
    have hm : x ∈ l.reverse := by rw [hr, h]; simp
    exact List.mem_reverse.mp hm

theorem segs_append_slash (a b : PyStr) : segs (a ++ '/' :: b) = segs a ++ segs b := by
  rw [segs, segs, segs]
  show (splitOnChar '/' (a ++ '/' :: b)).filter _ = _
  rw [splitOnChar_append_sep, List.filter_append]

theorem segs_single (p : PyStr) (h1 : p ≠ []) (h2 : '/' ∉ p) : segs p = [p] := by
  rw [segs]
  show (splitOnChar '/' p).filter _ = _
  rw [splitOnChar_of_not_mem '/' p h2]
  have hne : p.isEmpty = false := by
    cases p with
    | nil => exact absurd rfl h1
    | cons c cs => rfl
  simp [List.filter_cons, hne]

theorem segs_join (ls : List PyStr) (h0 : ls ≠ [])
    (h1 : ∀ s ∈ ls, s ≠ [] ∧ '/' ∉ s) : segs (joinWithChar '/' ls) = ls := by
  rw [segs]
  show (splitOnChar '/' (joinWithChar '/' ls)).filter _ = _
  rw [splitOnChar_joinWithChar '/' ls h0 (fun l hl => (h1 l hl).2)]
  apply List.filter_eq_self.mpr
  intro s hs
  have hne := (h1 s hs).1
  cases s with
  | nil => exact absurd rfl hne
  | cons c cs => rfl

theorem commonPrefixLen_self_append (a b : List PyStr) :
    commonPrefixLen a (a ++ b) = a.length := by
  induction a with
  | nil => rfl
  | cons x a ih => simp [commonPrefixLen, ih]

theorem pyRelpath_under (root : PyStr) (restSegs : List PyStr)
    (hroot1 : root ≠ []) (hroot2 : '/' ∉ root) (h0 : restSegs ≠ [])
    (h1 : ∀ s ∈ restSegs, s ≠ [] ∧ '/' ∉ s) :
    pyRelpath (root ++ '/' :: joinWithChar '/' restSegs) root
      = joinWithChar '/' restSegs := by
  have hsr : segs root = [root] := segs_single root hroot1 hroot2
  have hsp : segs (root ++ '/' :: joinWithChar '/' restSegs) = [root] ++ restSegs := by
    rw [segs_append_slash, hsr, segs_join restSegs h0 h1]
  cases hrs : restSegs with
  | nil => exact absurd hrs h0
  | cons s ss =>
    subst hrs
    simp only [pyRelpath, hsr, hsp]
    rw [commonPrefixLen_self_append [root] (s :: ss)]
    simp [List.singleton_append]

theorem pyJoin_under (root : PyStr) (restSegs : List PyStr)
    (hroot1 : root ≠ []) (hroot2 : '/' ∉ root) (h0 : restSegs ≠ [])
    (h1 : ∀ s ∈ restSegs, s ≠ [] ∧ '/' ∉ s) :
    pyJoin root (joinWithChar '/' restSegs)
      = root ++ '/' :: joinWithChar '/' restSegs := by
  have hhead : ¬ (joinWithChar '/' restSegs).headD ' ' = '/' := by
    cases restSegs with
    | nil => exact absurd rfl h0
    | cons s0 ss =>
      obtain ⟨hne, hnm⟩ := h1 s0 (by simp)
      cases s0 with
      | nil => exact absurd rfl hne
      | cons c cs =>
        have hc : c ≠ '/' := fun hh => hnm (by rw [hh]; simp)
        cases ss with
        | nil => simpa [joinWithChar] using hc
        | cons t ts =>
          have hj : joinWithChar '/' ((c :: cs) :: t :: ts)
              = (c :: cs) ++ '/' :: joinWithChar '/' (t :: ts) := rfl
          rw [hj]
          simpa using hc
  have hempty : root.isEmpty = false := by
    cases root with
    | nil => exact absurd rfl hroot1
    | cons c cs => rfl
  have hlast : ¬ root.getLast? = some '/' := by
    intro hh
    exact hroot2 (getLast?_mem_of root '/' hh)
  rw [pyJoin, if_neg hhead, if_neg (by simp [hempty, hlast])]

theorem underRoot_self_append (root rest : PyStr) :
    underRoot root (root ++ '/' :: rest) = true := by
  rw [underRoot, List.isPrefixOf_iff_prefix]
  have hsh : root ++ '/' :: rest = (root ++ ['/']) ++ rest := by simp
  rw [hsh]
  exact List.prefix_append _ _

theorem isPrefixOf_self_append (a b : PyStr) : a.isPrefixOf (a ++ b) = true := by
  rw [List.isPrefixOf_iff_prefix]
  exact List.prefix_append a b

theorem fetch_single (root content : PyStr) (restSegs : List PyStr)
    (hroot1 : root ≠ []) (hroot2 : '/' ∉ root) (h0 : restSegs ≠ [])
    (h1 : ∀ s ∈ restSegs, s ≠ [] ∧ '/' ∉ s) :
    (Git.init root).fetch [(root ++ '/' :: joinWithChar '/' restSegs, content)]
      = ⟨root, [⟨⟨root ++ '/' :: joinWithChar '/' restSegs⟩, mkBody content⟩],
          [], -1, []⟩ := by
  have hrt : pyJoin root (pyRelpath (root ++ '/' :: joinWithChar '/' restSegs) root)
      = root ++ '/' :: joinWithChar '/' restSegs := by
    rw [pyRelpath_under root restSegs hroot1 hroot2 h0 h1,
      pyJoin_under root restSegs hroot1 hroot2 h0 h1]
  have hfil : (([(root ++ '/' :: joinWithChar '/' restSegs, content)] : FS)).filter
      (fun e => underRoot root e.1)
      = [(root ++ '/' :: joinWithChar '/' restSegs, content)] := by
    simp [List.filter_cons, underRoot_self_append]
  show ((([(root ++ '/' :: joinWithChar '/' restSegs, content)] : FS)).filter
      (fun e => underRoot root e.1)).foldl
      (fun g2 e => g2.addAsset (pyJoin g2.root (pyRelpath e.1 g2.root)) e.2)
      (Git.init root) = _
  rw [hfil, List.foldl_cons, List.foldl_nil]
  show Git.addAsset (Git.init root)
      (pyJoin root (pyRelpath (root ++ '/' :: joinWithChar '/' restSegs) root)) content
    = ⟨root, [⟨⟨root ++ '/' :: joinWithChar '/' restSegs⟩, mkBody content⟩], [], -1, []⟩
  rw [hrt]
  simp [Git.addAsset, Git.init, findMatchIdx]

/-- C10: `add_asset` stores `extract_body(content)`, not the raw content;
`extract_body` is idempotent; therefore `fetch` followed by `push` is not the
identity on a file under `root` whose content has a leading run of blank or
path-comment lines (the file is rewritten with that run removed), while a
second `fetch`/`push` cycle leaves both the store and the filesystem
unchanged. -/
theorem claim_C10 :
    (∀ raw, extractBody (extractBody raw) = extractBody raw) ∧
    (∀ (g : Git) (p c : PyStr),
      (findMatchIdx p g.assets = none →
        (g.addAsset p c).assets = g.assets ++ [⟨⟨p⟩, ⟨extractBody c⟩⟩]) ∧
      (∀ i, findMatchIdx p g.assets = some i →
        (g.addAsset p c).assets = g.assets.set i ⟨⟨p⟩, ⟨extractBody c⟩⟩)) ∧
    (∀ (root content : PyStr) (restSegs : List PyStr),
      root ≠ [] → '/' ∉ root → restSegs ≠ [] →
      (∀ s ∈ restSegs, s ≠ [] ∧ '/' ∉ s) →
      ((Git.init root).fetch
          [(root ++ '/' :: joinWithChar '/' restSegs, content)]).assets
        = [⟨⟨root ++ '/' :: joinWithChar '/' restSegs⟩, ⟨extractBody content⟩⟩] ∧
      (extractBody content ≠ content →
        Git.push ((Git.init root).fetch
            [(root ++ '/' :: joinWithChar '/' restSegs, content)])
          [(root ++ '/' :: joinWithChar '/' restSegs, content)]
        = ([(root ++ '/' :: joinWithChar '/' restSegs, extractBody content)],
           [(root ++ '/' :: joinWithChar '/' restSegs, extractBody content)])) ∧
      (extractBody content = content →
        Git.push ((Git.init root).fetch
            [(root ++ '/' :: joinWithChar '/' restSegs, content)])
          [(root ++ '/' :: joinWithChar '/' restSegs, content)]
        = ([(root ++ '/' :: joinWithChar '/' restSegs, content)], [])) ∧
      ((Git.init root).fetch [(root ++ '/' :: joinWithChar '/' restSegs, content)]).fetch
          [(root ++ '/' :: joinWithChar '/' restSegs, extractBody content)]
        = (Git.init root).fetch [(root ++ '/' :: joinWithChar '/' restSegs, content)] ∧
      Git.push ((Git.init root).fetch
            [(root ++ '/' :: joinWithChar '/' restSegs, content)])
          [(root ++ '/' :: joinWithChar '/' restSegs, extractBody content)]
        = ([(root ++ '/' :: joinWithChar '/' restSegs, extractBody content)], [])) := by
  refine ⟨extractBody_idem, ?_, ?_⟩
  · intro g p c
    constructor
    · intro h
      simp [Git.addAsset, h, mkBody]
    · intro i h
      simp [Git.addAsset, h, mkBody]
  · intro root content restSegs hroot1 hroot2 h0 h1
    have hg1 := fetch_single root content restSegs hroot1 hroot2 h0 h1
    have hrt : pyJoin root (pyRelpath (root ++ '/' :: joinWithChar '/' restSegs) root)
        = root ++ '/' :: joinWithChar '/' restSegs := by
      rw [pyRelpath_under root restSegs hroot1 hroot2 h0 h1,
        pyJoin_under root restSegs hroot1 hroot2 h0 h1]
    have hpre : root.isPrefixOf (root ++ '/' :: joinWithChar '/' restSegs) = true :=
      isPrefixOf_self_append root ('/' :: joinWithChar '/' restSegs)
    refine ⟨by rw [hg1]; rfl, ?_, ?_, ?_, ?_⟩
    · intro hne
      have hcd : ¬ content = extractBody content := fun hh => hne hh.symm
      rw [hg1]
      show pushStep root ([(root ++ '/' :: joinWithChar '/' restSegs, content)], [])
          ⟨⟨root ++ '/' :: joinWithChar '/' restSegs⟩, mkBody content⟩ = _
      simp [pushStep, hpre, hrt, fsLookup_cons, mkBody, hcd, fsWrite]
    · intro heq
      rw [hg1]
      show pushStep root ([(root ++ '/' :: joinWithChar '/' restSegs, content)], [])
          ⟨⟨root ++ '/' :: joinWithChar '/' restSegs⟩, mkBody content⟩
        = ([(root ++ '/' :: joinWithChar '/' restSegs, content)], [])
      simp only [pushStep, hpre, if_true, hrt, fsLookup_cons, if_pos rfl, mkBody]
      rw [if_pos heq.symm]
    · rw [hg1]
      have hfil : (([(root ++ '/' :: joinWithChar '/' restSegs, extractBody content)]
          : FS)).filter (fun e => underRoot root e.1)
          = [(root ++ '/' :: joinWithChar '/' restSegs, extractBody content)] := by
        simp [List.filter_cons, underRoot_self_append]
      show ((([(root ++ '/' :: joinWithChar '/' restSegs, extractBody content)]
          : FS)).filter (fun e => underRoot root e.1)).foldl
          (fun g2 e => g2.addAsset (pyJoin g2.root (pyRelpath e.1 g2.root)) e.2)
          (⟨root, [⟨⟨root ++ '/' :: joinWithChar '/' restSegs⟩, mkBody content⟩],
            [], -1, []⟩ : Git) = _
      rw [hfil, List.foldl_cons, List.foldl_nil]
      show Git.addAsset
          (⟨root, [⟨⟨root ++ '/' :: joinWithChar '/' restSegs⟩, mkBody content⟩],
            [], -1, []⟩ : Git)
          (pyJoin root (pyRelpath (root ++ '/' :: joinWithChar '/' restSegs) root))
          (extractBody content)
        = ⟨root, [⟨⟨root ++ '/' :: joinWithChar '/' restSegs⟩, mkBody content⟩],
            [], -1, []⟩
      rw [hrt]
      have hidx : findMatchIdx (root ++ '/' :: joinWithChar '/' restSegs)
          [(⟨⟨root ++ '/' :: joinWithChar '/' restSegs⟩, mkBody content⟩ : CodeBlock)]
          = some 0 := by
        simp [findMatchIdx]
      simp only [Git.addAsset, hidx]
      have hbody : mkBody (extractBody content) = mkBody content := by
        rw [mkBody, mkBody, extractBody_idem]
      rw [hbody]
      rfl
    · rw [hg1]
      show pushStep root
          ([(root ++ '/' :: joinWithChar '/' restSegs, extractBody content)], [])
          ⟨⟨root ++ '/' :: joinWithChar '/' restSegs⟩, mkBody content⟩ = _
      simp [pushStep, hpre, hrt, fsLookup_cons, mkBody]
theorem claim_C10_witness :
    ((Git.init (pyOfString "src")).fetch
        [(pyOfString "src" ++ '/' :: joinWithChar '/' [pyOfString "a.js"],
          pyOfString "\n// src/a.js\nreal()")]).assets
      = [⟨⟨pyOfString "src" ++ '/' :: joinWithChar '/' [pyOfString "a.js"]⟩,
          ⟨extractBody (pyOfString "\n// src/a.js\nreal()")⟩⟩] ∧
    Git.push ((Git.init (pyOfString "src")).fetch
        [(pyOfString "src" ++ '/' :: joinWithChar '/' [pyOfString "a.js"],
          pyOfString "\n// src/a.js\nreal()")])
      [(pyOfString "src" ++ '/' :: joinWithChar '/' [pyOfString "a.js"],
        pyOfString "\n// src/a.js\nreal()")]
      = ([(pyOfString "src" ++ '/' :: joinWithChar '/' [pyOfString "a.js"],
           extractBody (pyOfString "\n// src/a.js\nreal()"))],
         [(pyOfString "src" ++ '/' :: joinWithChar '/' [pyOfString "a.js"],
           extractBody (pyOfString "\n// src/a.js\nreal()"))]) ∧
    Git.push ((Git.init (pyOfString "src")).fetch
        [(pyOfString "src" ++ '/' :: joinWithChar '/' [pyOfString "a.js"],
          pyOfString "\n// src/a.js\nreal()")])
      [(pyOfString "src" ++ '/' :: joinWithChar '/' [pyOfString "a.js"],
        extractBody (pyOfString "\n// src/a.js\nreal()"))]
      = ([(pyOfString "src" ++ '/' :: joinWithChar '/' [pyOfString "a.js"],
           extractBody (pyOfString "\n// src/a.js\nreal()"))], []) := by
  have h := claim_C10.2.2 (pyOfString "src") (pyOfString "\n// src/a.js\nreal()")
    [pyOfString "a.js"] (by decide) (by decide) (by decide) (by decide)
  exact ⟨h.1, h.2.1 (by decide), h.2.2.2.2⟩

end Davai
